import Mathlib

-- Shallow embedding of the connpass event scrapers
-- (src/scripts/scrape_linedc_connpass.py and src/scripts/scrape_iotlt_connpass.py).
-- Strings are manipulated as lists of characters; a text file is modelled as the
-- list of its newline-terminated lines.  Python's `str` operations used by the
-- scripts (strip, split, replace, startswith, lower, int(), str(), sort) are
-- translated into executable structural functions below.

-- ---------------------------------------------------------------------------
-- Character-level utilities (models of Python str primitives)
-- ---------------------------------------------------------------------------

-- Characters the scripts treat specially, written via code points so that the
-- source stays plain ASCII where escaping would be awkward.
def quoteChar : Char := Char.ofNat 34

def aposChar : Char := Char.ofNat 39

def backslashChar : Char := Char.ofNat 92

-- Python `\s` on the ASCII range (the pages' whitespace is ASCII).
def isWsChar (c : Char) : Bool :=
  c = ' ' || c = '\t' || c = '\n' || c = '\r' || c = Char.ofNat 11 || c = Char.ofNat 12

def isDigitChar (c : Char) : Bool :=
  48 ≤ c.toNat && c.toNat ≤ 57

-- ASCII case folding (Python str.lower on the ASCII letters we compare).
def lowerChar (c : Char) : Char :=
  if 65 ≤ c.toNat && c.toNat ≤ 90 then Char.ofNat (c.toNat + 32) else c

def lowerList (l : List Char) : List Char := l.map lowerChar

-- Python s.strip(): drop whitespace from both ends.
def stripWsList (l : List Char) : List Char :=
  ((l.dropWhile isWsChar).reverse.dropWhile isWsChar).reverse

-- Python s.strip(chars): drop any of the given characters from both ends.
def stripAnyBoth (cs : List Char) (l : List Char) : List Char :=
  ((l.dropWhile cs.contains).reverse.dropWhile cs.contains).reverse

-- Python s.rstrip(chars): drop any of the given characters from the right end.
def rstripAny (cs : List Char) (l : List Char) : List Char :=
  (l.reverse.dropWhile cs.contains).reverse

-- Python s.split(sep) for a one-character separator.
def splitChar (sep : Char) : List Char → List (List Char)
  | [] => [[]]
  | x :: xs =>
    if x = sep then [] :: splitChar sep xs
    else
      match splitChar sep xs with
      | [] => [[x]]
      | h :: t => (x :: h) :: t

-- Does `pat` occur as a leading segment of `l`?
def startsList : List Char → List Char → Bool
  | [], _ => true
  | _ :: _, [] => false
  | p :: ps, c :: cs => p = c && startsList ps cs

def startsListCI (pat l : List Char) : Bool :=
  startsList (lowerList pat) (lowerList l)

-- Python s.startswith(pat) / s.endswith(pat) on whole strings.
def startsStr (pat s : String) : Bool := startsList pat.data s.data

def endsStr (pat s : String) : Bool := startsList pat.data.reverse s.data.reverse

-- Substring containment, Python `pat in s`.
def subListB (pat : List Char) : List Char → Bool
  | [] => startsList pat []
  | l@(_ :: rest) => startsList pat l || subListB pat rest

def subStr (pat s : String) : Bool := subListB pat.data s.data

def pyStrip (s : String) : String := String.mk (stripWsList s.data)

-- ---------------------------------------------------------------------------
-- Python int() / str() on integers
-- ---------------------------------------------------------------------------

def digitVal (c : Char) : Option Nat :=
  if isDigitChar c then some (c.toNat - 48) else none

def parseDigitsAux (acc : Nat) : List Char → Option Nat
  | [] => some acc
  | c :: cs =>
    match digitVal c with
    | some d => parseDigitsAux (acc * 10 + d) cs
    | none => none

def parseDigits (l : List Char) : Option Nat :=
  if l.isEmpty then none else parseDigitsAux 0 l

-- Python int(s) for an already-whitespace-stripped cell: optional sign and
-- decimal digits, anything else raises (None here).
def pyIntOfList : List Char → Option Int
  | [] => none
  | c :: cs =>
    if c = '-' then (parseDigits cs).map (fun n => -(n : Int))
    else if c = '+' then (parseDigits cs).map (fun n => (n : Int))
    else (parseDigits (c :: cs)).map (fun n => (n : Int))

def pyIntOf (s : String) : Option Int := pyIntOfList s.data

-- Python str(i) for an integer: decimal digits, '-' sign for negatives.
def intReprChars : Int → List Char
  | Int.ofNat n => Nat.toDigits 10 n
  | Int.negSucc n => '-' :: Nat.toDigits 10 (n + 1)

-- ---------------------------------------------------------------------------
-- Code-point comparison of strings (Python string ordering)
-- ---------------------------------------------------------------------------

def clCmp : List Char → List Char → Ordering
  | [], [] => .eq
  | [], _ :: _ => .lt
  | _ :: _, [] => .gt
  | a :: as, b :: bs =>
    if a.toNat < b.toNat then .lt
    else if b.toNat < a.toNat then .gt
    else clCmp as bs

def strCmp (a b : String) : Ordering := clCmp a.data b.data

-- Lexicographic comparison of key tuples (Python tuple comparison).
def cmpLex : List String → List String → Ordering
  | [], [] => .eq
  | [], _ :: _ => .lt
  | _ :: _, [] => .gt
  | x :: xs, y :: ys => (strCmp x y).then (cmpLex xs ys)

-- Stable insertion sort; agrees with Python list.sort (both are stable sorts
-- for the same total preorder).
def insertRow (le : α → α → Bool) (a : α) : List α → List α
  | [] => [a]
  | b :: bs => if le a b then a :: b :: bs else b :: insertRow le a bs

def sortByLe (le : α → α → Bool) : List α → List α
  | [] => []
  | a :: as => insertRow le a (sortByLe le as)

-- Order-preserving de-duplication (the `seen` sets used throughout the code).
def dedupKeep (seen : List String) : List String → List String
  | [] => []
  | u :: us => if seen.contains u then dedupKeep seen us else u :: dedupKeep (u :: seen) us

-- ---------------------------------------------------------------------------
-- URL parsing (model of urllib.parse.urlparse as used by `_domain` and
-- `_is_tweet_summary_url`: netloc and path only)
-- ---------------------------------------------------------------------------

def isSchemeChar (c : Char) : Bool :=
  c.isAlpha || isDigitChar c || c = '+' || c = '-' || c = '.'

-- Strip a leading `scheme:` when present (urlsplit's scheme handling).
def dropScheme (l : List Char) : List Char :=
  match l.findIdx? (· = ':') with
  | some i =>
    if 0 < i && (match l.head? with | some c => c.isAlpha | none => false)
        && (l.take i).all isSchemeChar
    then l.drop (i + 1) else l
  | none => l

def notNetlocEnd (c : Char) : Bool := !(c = '/' || c = '?' || c = '#')

def notPathEnd (c : Char) : Bool := !(c = '?' || c = '#')

-- (netloc, path) of a URL, as urlparse returns them.
def urlNetlocPath (u : String) : String × String :=
  let l := dropScheme u.data
  if startsList ['/', '/'] l then
    let rest := l.drop 2
    let netloc := rest.takeWhile notNetlocEnd
    let after := rest.drop netloc.length
    (String.mk netloc, String.mk (after.takeWhile notPathEnd))
  else
    (String.mk [], String.mk (l.takeWhile notPathEnd))

-- `_domain`: lower-cased netloc.
def url_domain (u : String) : String := String.mk (lowerList (urlNetlocPath u).1.data)

-- ---------------------------------------------------------------------------
-- Domain vocabularies and link classification
-- ---------------------------------------------------------------------------

def SLIDE_DOMAINS : List String :=
  ["speakerdeck.com", "www.slideshare.net", "slideshare.net", "docs.google.com"]

def SHORTENER_DOMAINS : List String :=
  ["t.co", "bit.ly", "tinyurl.com", "goo.gl", "buff.ly", "ow.ly"]

-- `_is_tweet_summary_url`.
def is_tweet_summary_url (url : String) : Bool :=
  let host := String.mk (lowerList (urlNetlocPath url).1.data)
  let path := (urlNetlocPath url).2
  if host == "togetter.com" || host == "min.togetter.com" then
    startsStr "/li/" path || startsStr "/id/" path
  else if endsStr ".togetter.com" host then false
  else if host == "posfie.com" || endsStr ".posfie.com" host then true
  else if host == "twilog.togetter.com" then true
  else false

def isSlideDomain (d : String) : Bool :=
  SLIDE_DOMAINS.any (fun sd => d == sd || endsStr ("." ++ sd) d)

-- `_normalize_candidate_url`.
def bareHostHead (r : String) : Bool :=
  startsStr "togetter.com/" r || startsStr "posfie.com/" r || startsStr "speakerdeck.com/" r
    || startsStr "slideshare.net/" r || startsStr "www.slideshare.net/" r
    || startsStr "docs.google.com/" r

def normalize_candidate_url (raw : String) : Option String :=
  let r1 := stripWsList raw.data
  let r2 := stripAnyBoth ['<', '>', quoteChar, aposChar] r1
  let r3 := String.mk (rstripAny [')', '.', ',', ';', ']'] r2)
  if r3.data.isEmpty then none
  else if startsStr "//" r3 then some ("https:" ++ r3)
  else if startsStr "http://" r3 || startsStr "https://" r3 then some r3
  else if startsStr "www." r3 then some ("https://" ++ r3)
  else if bareHostHead r3 then some ("https://" ++ r3)
  else none

-- `_extract_links`, starting from the list of candidate strings harvested by
-- the three regex scans over the page (`href` attributes, absolute URLs in
-- text, bare known-host URLs); normalization, filtering and first-occurrence
-- de-duplication as in the source.
def exLinksAux (seen out : List String) : List String → List String
  | [] => out
  | raw :: rest =>
    match normalize_candidate_url raw with
    | none => exLinksAux seen out rest
    | some href =>
      if startsStr "#" href then exLinksAux seen out rest
      else if startsStr "javascript:" href then exLinksAux seen out rest
      else if seen.contains href then exLinksAux seen out rest
      else exLinksAux (href :: seen) (out ++ [href]) rest

def extract_links (cands : List String) : List String := exLinksAux [] [] cands

-- The link-classification loop of `_event_row_from_html` (linedc lines
-- 457-472) / `_event_row_from_url` (iotlt lines 466-482).  `resolve` stands
-- for the HEAD-only `_run_curl` call: `none` models the exception path, which
-- leaves the link unresolved.
def classify_step (resolve : String → Option String) (resolve_shorteners : Bool)
    (acc : List String × List String) (link0 : String) : List String × List String :=
  let d0 := url_domain link0
  let ld :=
    if resolve_shorteners && SHORTENER_DOMAINS.contains d0 then
      match resolve link0 with
      | some eff => (eff, url_domain eff)
      | none => (link0, d0)
    else (link0, d0)
  if is_tweet_summary_url ld.1 then (acc.1 ++ [ld.1], acc.2)
  else if isSlideDomain ld.2 then
    if ld.2 == "docs.google.com" && !subStr "/presentation/" ld.1 then acc
    else (acc.1, acc.2 ++ [ld.1])
  else acc

def classify_links (resolve : String → Option String) (resolve_shorteners : Bool)
    (links : List String) : List String × List String :=
  links.foldl (classify_step resolve resolve_shorteners) ([], [])

-- Python list(dict.fromkeys(...)) used on the fast path for slide URLs.
def slide_dedup (ls : List String) : List String := dedupKeep [] ls

-- Classification of a single link (the loop body on an empty accumulator).
inductive LkClass where
  | tweet
  | slide
  | discard
deriving DecidableEq

def classify_link (link : String) : LkClass :=
  if is_tweet_summary_url link then .tweet
  else if isSlideDomain (url_domain link) then
    if url_domain link == "docs.google.com" && !subStr "/presentation/" link then .discard
    else .slide
  else .discard

-- tweet_urls and slide_urls of one parsed event record: extracted links are
-- classified, then slide URLs are either liveness-filtered
-- (validate_slides=True) or de-duplicated (fast path).
def event_links (resolve : String → Option String) (resolve_shorteners validate : Bool)
    (isLive : String → Bool) (cands : List String) : List String × List String :=
  let links := extract_links cands
  let tw_sl := classify_links resolve resolve_shorteners links
  (tw_sl.1, if validate then tw_sl.2.filter isLive else slide_dedup tw_sl.2)

-- ---------------------------------------------------------------------------
-- Deterministic matchers for the regular expressions of the page parser.
-- Each `m...At` function tries to match its pattern at the head of the list
-- and returns what the pattern needs; `searchBy` scans the text left to right
-- for the first position where the matcher succeeds (re.search semantics).
-- ---------------------------------------------------------------------------

def searchBy (f : List Char → Option α) : List Char → Option α
  | [] => f []
  | l@(_ :: rest) =>
    match f l with
    | some a => some a
    | none => searchBy f rest

def mLit (pat : String) (l : List Char) : Option (List Char) :=
  if startsList pat.data l then some (l.drop pat.data.length) else none

def mLitCI (pat : String) (l : List Char) : Option (List Char) :=
  if startsListCI pat.data l then some (l.drop pat.data.length) else none

def mChar (c : Char) (l : List Char) : Option (List Char) :=
  match l with
  | x :: r => if x = c then some r else none
  | [] => none

def mAnyOf (cs : List Char) (l : List Char) : Option (List Char) :=
  match l with
  | x :: r => if cs.contains x then some r else none
  | [] => none

-- One or more whitespace characters.
def mWsPlus (l : List Char) : Option (List Char) :=
  match l with
  | c :: r => if isWsChar c then some (r.dropWhile isWsChar) else none
  | [] => none

-- Exactly n digit characters.
def mDigitN (n : Nat) (l : List Char) : Option (List Char × List Char) :=
  let t := l.take n
  if t.length = n && t.all isDigitChar then some (t, l.drop n) else none

def digitsVal (ds : List Char) : Nat :=
  ds.foldl (fun a c => a * 10 + (c.toNat - 48)) 0

-- One or more digits, greedy.
def mDigitsPlus (l : List Char) : Option (Nat × List Char) :=
  let ds := l.takeWhile isDigitChar
  if ds.isEmpty then none else some (digitsVal ds, l.drop ds.length)

-- `\d{1,2}:\d{2}`: two digits first, then backtrack to one.
def mTime (l : List Char) : Option (List Char × List Char) :=
  match (do
    let p2 ← mDigitN 2 l
    let r2 ← mChar ':' p2.2
    let p3 ← mDigitN 2 r2
    pure (p2.1 ++ ':' :: p3.1, p3.2)) with
  | some res => some res
  | none => do
    let p1 ← mDigitN 1 l
    let r2 ← mChar ':' p1.2
    let p3 ← mDigitN 2 r2
    pure (p1.1 ++ ':' :: p3.1, p3.2)

-- Python re.sub(r"\s+", " ", s): collapse each whitespace run to one space.
def collapseWsAux (prevWs : Bool) : List Char → List Char
  | [] => []
  | c :: rest =>
    if isWsChar c then
      if prevWs then collapseWsAux true rest else ' ' :: collapseWsAux true rest
    else c :: collapseWsAux false rest

def collapseWs (l : List Char) : List Char := collapseWsAux false l

def isCtrlChar (c : Char) : Bool := c.toNat ≤ 31 || c.toNat = 127

-- `_clean_text`: drop control characters, collapse whitespace, strip.
def cleanTextList (l : List Char) : List Char :=
  stripWsList (collapseWs (l.filter (fun c => !isCtrlChar c)))

-- re.sub(r"<[^>]+>", "", s): drop tag-like spans (fuel-driven scan so the
-- definition stays structurally recursive).
def stripTagsF : Nat → List Char → List Char
  | 0, l => l
  | _ + 1, [] => []
  | fuel + 1, c :: rest =>
    if c = '<' then
      let content := rest.takeWhile (· ≠ '>')
      if content.isEmpty then c :: stripTagsF fuel rest
      else
        match (rest.drop content.length) with
        | '>' :: after => stripTagsF fuel after
        | _ => c :: stripTagsF fuel rest
    else c :: stripTagsF fuel rest

def stripTags (l : List Char) : List Char := stripTagsF (l.length + 1) l

-- Text before the first case-insensitive occurrence of `pat`, if any.
def beforeSubCI (pat : List Char) : List Char → Option (List Char)
  | [] => if startsListCI pat [] then some [] else none
  | l@(c :: rest) =>
    if startsListCI pat l then some []
    else (beforeSubCI pat rest).map (c :: ·)

-- Replace "&nbsp;" and then "&#160;" by spaces (the two str.replace passes of
-- `_extract_weekday_and_timerange`).
def replaceNbsp : List Char → List Char
  | '&' :: 'n' :: 'b' :: 's' :: 'p' :: ';' :: rest => ' ' :: replaceNbsp rest
  | c :: rest => c :: replaceNbsp rest
  | [] => []

def replace160 : List Char → List Char
  | '&' :: '#' :: '1' :: '6' :: '0' :: ';' :: rest => ' ' :: replace160 rest
  | c :: rest => c :: replace160 rest
  | [] => []

def nbspToSpaces (l : List Char) : List Char := replace160 (replaceNbsp l)

-- ---------------------------------------------------------------------------
-- Page-parser field extractors
-- ---------------------------------------------------------------------------

-- Matcher for `<div\s+class="current_event_title">\s*(.*?)\s*</div>` at one
-- position: returns the captured group.
def mDivTitleAt (l : List Char) : Option (List Char) := do
  let r1 ← mLitCI "<div" l
  let r2 ← mWsPlus r1
  let r3 ← mLitCI ("class=" ++ String.mk [quoteChar] ++ "current_event_title" ++ String.mk [quoteChar] ++ ">") r2
  let body := r3.dropWhile isWsChar
  let cap ← beforeSubCI "</div>".data body
  pure (stripWsList cap)

-- Matcher for `<title>\s*(.*?)\s*</title>` at one position.
def mTitleTagAt (l : List Char) : Option (List Char) := do
  let r1 ← mLitCI "<title>" l
  let body := r1.dropWhile isWsChar
  let cap ← beforeSubCI "</title>".data body
  pure (stripWsList cap)

-- `_extract_title`: event-title div first, then the document title tag;
-- `none` models the RuntimeError.
def extract_title (html : String) : Option String :=
  match searchBy mDivTitleAt html.data with
  | some cap => some (String.mk (cleanTextList (stripTags cap)))
  | none =>
    match searchBy mTitleTagAt html.data with
    | some cap => some (String.mk (cleanTextList cap))
    | none => none

-- `_extract_title_from_html` (the slide-liveness helper): title tag only,
-- collapsed and stripped, empty mapped to none.
def extract_title_from_html (html : String) : Option String :=
  match searchBy mTitleTagAt html.data with
  | some cap =>
    let t := stripWsList (collapseWs cap)
    if t.isEmpty then none else some (String.mk t)
  | none => none

-- Matcher for `(\d{4})/(\d{2})/(\d{2})\([^)]*\)` at one position.
def mDateParenAt (l : List Char) : Option (List Char) := do
  let y ← mDigitN 4 l
  let r1 ← mChar '/' y.2
  let mo ← mDigitN 2 r1
  let r2 ← mChar '/' mo.2
  let d ← mDigitN 2 r2
  let r3 ← mChar '(' d.2
  let inner := r3.takeWhile (· ≠ ')')
  let _ ← mChar ')' (r3.drop inner.length)
  pure (y.1 ++ '/' :: mo.1 ++ '/' :: d.1)

-- Matcher for the fallback `(\d{4})/(\d{2})/(\d{2})`.
def mDatePlainAt (l : List Char) : Option (List Char) := do
  let y ← mDigitN 4 l
  let r1 ← mChar '/' y.2
  let mo ← mDigitN 2 r1
  let r2 ← mChar '/' mo.2
  let d ← mDigitN 2 r2
  pure (y.1 ++ '/' :: mo.1 ++ '/' :: d.1)

-- `_extract_date`.
def extract_date (html : String) : Option String :=
  match searchBy mDateParenAt html.data with
  | some ymd => some (String.mk ymd)
  | none =>
    match searchBy mDatePlainAt html.data with
    | some ymd => some (String.mk ymd)
    | none => none

-- Matcher for `\d{4}/\d{2}/\d{2}\(([^)]+)\)\s*(\d{1,2}:\d{2})\s*(?:～|〜|-)\s*(\d{1,2}:\d{2})`.
def mDateTimeRangeAt (l : List Char) : Option (List Char × List Char × List Char) := do
  let y ← mDigitN 4 l
  let r1 ← mChar '/' y.2
  let mo ← mDigitN 2 r1
  let r2 ← mChar '/' mo.2
  let d ← mDigitN 2 r2
  let r3 ← mChar '(' d.2
  let wd := r3.takeWhile (· ≠ ')')
  if wd.isEmpty then none else do
    let r4 ← mChar ')' (r3.drop wd.length)
    let t1 ← mTime (r4.dropWhile isWsChar)
    let r5 ← mAnyOf ['～', '〜', '-'] (t1.2.dropWhile isWsChar)
    let t2 ← mTime (r5.dropWhile isWsChar)
    pure (wd, t1.1, t2.1)

-- Matcher for the fallback `\d{4}/\d{2}/\d{2}\(([^)]+)\)\s*(\d{1,2}:\d{2})`.
def mDateTimeStartAt (l : List Char) : Option (List Char × List Char) := do
  let y ← mDigitN 4 l
  let r1 ← mChar '/' y.2
  let mo ← mDigitN 2 r1
  let r2 ← mChar '/' mo.2
  let d ← mDigitN 2 r2
  let r3 ← mChar '(' d.2
  let wd := r3.takeWhile (· ≠ ')')
  if wd.isEmpty then none else do
    let r4 ← mChar ')' (r3.drop wd.length)
    let t1 ← mTime (r4.dropWhile isWsChar)
    pure (wd, t1.1)

-- `_extract_weekday_and_timerange`.
def extract_weekday_and_timerange (html : String) : String × String :=
  let h := nbspToSpaces html.data
  match searchBy mDateTimeRangeAt h with
  | some wtt => (String.mk (cleanTextList wtt.1), String.mk (wtt.2.1 ++ '~' :: wtt.2.2))
  | none =>
    match searchBy mDateTimeStartAt h with
    | some wt => (String.mk (cleanTextList wt.1), String.mk (wt.2 ++ ['~']))
    | none => ("", "")

-- The five participants patterns of `_extract_participants`, tried in order.
def mPart1At (l : List Char) : Option Nat := do
  let r1 ← mLit "参加者（" l
  let n ← mDigitsPlus (r1.dropWhile isWsChar)
  let _ ← mLit "人）" (n.2.dropWhile isWsChar)
  pure n.1

def mPart2At (l : List Char) : Option Nat := do
  let r1 ← mLit "参加者（" l
  let n ← mDigitsPlus (r1.dropWhile isWsChar)
  let _ ← mLit "名）" (n.2.dropWhile isWsChar)
  pure n.1

def mPart3At (l : List Char) : Option Nat := do
  let r1 ← mLit "参加者" l
  let r2 ← mAnyOf ['（', '('] (r1.dropWhile isWsChar)
  let n ← mDigitsPlus (r2.dropWhile isWsChar)
  let r3 ← mAnyOf ['人', '名'] (n.2.dropWhile isWsChar)
  let _ ← mAnyOf ['）', ')'] (r3.dropWhile isWsChar)
  pure n.1

def mPart4At (l : List Char) : Option Nat := do
  let r1 ← mLit "参加者一覧（" l
  let n ← mDigitsPlus (r1.dropWhile isWsChar)
  let r2 ← mAnyOf ['人', '名'] (n.2.dropWhile isWsChar)
  let _ ← mChar '）' r2
  pure n.1

def mPart5At (l : List Char) : Option Nat := do
  let r1 ← mLit "参加者一覧" l
  let r2 ← mAnyOf ['（', '('] (r1.dropWhile isWsChar)
  let n ← mDigitsPlus (r2.dropWhile isWsChar)
  let r3 ← mAnyOf ['人', '名'] (n.2.dropWhile isWsChar)
  let _ ← mAnyOf ['）', ')'] (r3.dropWhile isWsChar)
  pure n.1

-- The pattern sweep of `_extract_participants` (before the no-registration
-- fallback).
def participants_patterns (html : String) : Option Nat :=
  match searchBy mPart1At html.data with
  | some n => some n
  | none =>
    match searchBy mPart2At html.data with
    | some n => some n
    | none =>
      match searchBy mPart3At html.data with
      | some n => some n
      | none =>
        match searchBy mPart4At html.data with
        | some n => some n
        | none => searchBy mPart5At html.data

-- `_extract_participants`: patterns first, else 0 when registration is not
-- tracked on the site, else failure.
def extract_participants (html : String) : Option Nat :=
  match participants_patterns html with
  | some n => some n
  | none =>
    if subStr "当サイト以外で申し込み" html || subStr "申し込み不要" html then some 0
    else none

-- Matcher for `<p\s+class="place_name[^"]*">` at one position.
def mPlaceStartAt (l : List Char) : Option (List Char) := do
  let r1 ← mLitCI "<p" l
  let r2 ← mWsPlus r1
  let r3 ← mLitCI ("class=" ++ String.mk [quoteChar] ++ "place_name") r2
  let inner := r3.takeWhile (· ≠ quoteChar)
  let r4 ← mLitCI (String.mk [quoteChar] ++ ">") (r3.drop inner.length)
  pure r4

-- Matcher for `<p\s+class="adr">` at one position.
def mAdrStartAt (l : List Char) : Option (List Char) := do
  let r1 ← mLitCI "<p" l
  let r2 ← mWsPlus r1
  let r3 ← mLitCI ("class=" ++ String.mk [quoteChar] ++ "adr" ++ String.mk [quoteChar] ++ ">") r2
  pure r3

-- `_extract_between`: text between the end of the first start-pattern match
-- and the start of the following end-pattern match.
def extract_between (h : List Char) (startM : List Char → Option (List Char))
    (endPat : String) : Option (List Char) :=
  match searchBy startM h with
  | some rest => beforeSubCI endPat.data rest
  | none => none

-- `_extract_place_name_and_address`.
def extract_place_name_and_address (html : String) : String × String :=
  let venue :=
    match extract_between html.data mPlaceStartAt "</p>" with
    | none => ""
    | some b => String.mk (cleanTextList (stripTags b))
  let adr :=
    match extract_between html.data mAdrStartAt "</p>" with
    | none => ""
    | some b => String.mk (cleanTextList (stripTags b))
  (venue, adr)

-- `_infer_mode`.
def online_keywords : List String :=
  ["オンライン", "Zoom", "Teams", "Google Meet", "YouTube", "配信", "ウェビナー"]

def infer_mode (venue_name address : String) : String :=
  let venue := pyStrip venue_name
  let adr := pyStrip address
  let combined := venue ++ " " ++ adr
  let is_online := online_keywords.any (fun k => subStr k combined)
  if venue == "未定" && adr.data.isEmpty then "未定"
  else if is_online && !adr.data.isEmpty && adr ≠ "オンライン" then "オンライン / 対面"
  else if is_online || venue == "オンライン" || adr == "オンライン" then "オンライン"
  else if !adr.data.isEmpty then "対面"
  else "未定"

-- Python's `\w` for the characters appearing in these event titles: ASCII
-- alphanumerics, underscore, and non-ASCII letters (the CJK text involved is
-- all word-constituent for re.UNICODE).
def isWordChar (c : Char) : Bool :=
  c.isAlpha || isDigitChar c || c = '_' || 127 < c.toNat

-- Matcher for `vol\.?\s*(\d+)` (IGNORECASE) at one position.
def mVolDotAt (l : List Char) : Option Nat := do
  let r1 ← mLitCI "vol" l
  let r2 := match mChar '.' r1 with
    | some r => r
    | none => r1
  mDigitsPlus (r2.dropWhile isWsChar) |>.map (·.1)

-- Search for `(?:^|[^\w])#\s*(\d+)\b`: a hash not preceded by a word
-- character, optional whitespace, digits, then a word boundary.
def mHashNumAt (l : List Char) : Option Nat := do
  let r1 ← mChar '#' l
  let n ← mDigitsPlus (r1.dropWhile isWsChar)
  match n.2 with
  | [] => pure n.1
  | c :: _ => if isWordChar c then none else pure n.1

def searchHashNum (prevWord : Bool) : List Char → Option Nat
  | [] => none
  | c :: rest =>
    match (if prevWord then none else mHashNumAt (c :: rest)) with
    | some n => some n
    | none => searchHashNum (isWordChar c) rest

-- Matcher for `第\s*(\d+)\s*(?:回|回目)` at one position (the alternation is
-- decided by its first branch `回`).
def mDaiKaiAt (l : List Char) : Option Nat := do
  let r1 ← mLit "第" l
  let n ← mDigitsPlus (r1.dropWhile isWsChar)
  let _ ← mLit "回" (n.2.dropWhile isWsChar)
  pure n.1

-- `_infer_type_and_vol` (linedc variant): volume patterns in order, then the
-- title-keyword event type.
def infer_type_and_vol (title : String) : String × String :=
  let vol :=
    match searchBy mVolDotAt title.data with
    | some n => "vol." ++ String.mk (Nat.toDigits 10 n)
    | none =>
      match searchHashNum false title.data with
      | some n => "vol." ++ String.mk (Nat.toDigits 10 n)
      | none =>
        match searchBy mDaiKaiAt title.data with
        | some n => "vol." ++ String.mk (Nat.toDigits 10 n)
        | none => ""
  let lowered := String.mk (lowerList title.data)
  if subStr "lunch time input" lowered then ("Lunch Time Input", vol)
  else if subStr "lt" lowered && (subStr "大会" title || subStr "lt大会" lowered) then ("LT大会", vol)
  else if subStr "ハンズオン" title then ("ハンズオン", vol)
  else ("本体", vol)

-- ---------------------------------------------------------------------------
-- Draft record: the non-link fields assembled by `_event_row_from_html`
-- (linedc lines 433-450, no participants override, strict participants)
-- ---------------------------------------------------------------------------

structure DraftRecord where
  title : String
  event_type : String
  vol : String
  date_yyyy_mm_dd : String
  weekday_ja : String
  time_range : String
  participants : Nat
  venue_name : String
  address : String
  mode : String
deriving DecidableEq

def draft_of_html (html : String) : Option DraftRecord :=
  match extract_title html with
  | none => none
  | some title =>
    let tv := infer_type_and_vol title
    match extract_date html with
    | none => none
    | some date =>
      let wt := extract_weekday_and_timerange html
      match extract_participants html with
      | none => none
      | some p =>
        let va := extract_place_name_and_address html
        some
          { title := title, event_type := tv.1, vol := tv.2, date_yyyy_mm_dd := date,
            weekday_ja := wt.1, time_range := wt.2, participants := p,
            venue_name := va.1, address := va.2, mode := infer_mode va.1 va.2 }

-- ---------------------------------------------------------------------------
-- The Store: a markdown table file, modelled as its list of lines
-- ---------------------------------------------------------------------------

def headerLine1 : String :=
  "| id | vol | タイプ | タイトル | 実施形態 | 会場名 | 住所 | connpass URL | ツイートまとめ URL | LTスライド | 参加者数 | 日付 | 曜日 | 時間 |"

def headerLine2 : String :=
  "|---:|:---:|:---|:---|:---:|:---|:---|:---|:---|:---|---:|:---:|:---:|:---:|"

def headerLines : List String := [headerLine1, headerLine2]

-- The three newline-normalising str.replace passes of `_md_escape_cell`,
-- fused: every newline (and CRLF pair) becomes one space.
def normNl : List Char → List Char
  | '\r' :: '\n' :: rest => ' ' :: normNl rest
  | '\r' :: rest => ' ' :: normNl rest
  | '\n' :: rest => ' ' :: normNl rest
  | c :: rest => c :: normNl rest
  | [] => []

-- s.replace("|", "&#124;").
def replacePipeEnt : List Char → List Char
  | [] => []
  | c :: rest =>
    if c = '|' then '&' :: '#' :: '1' :: '2' :: '4' :: ';' :: replacePipeEnt rest
    else c :: replacePipeEnt rest

def md_escape_cell (s : String) : String :=
  String.mk (stripWsList (replacePipeEnt (normNl s.data)))

def joinSep (sep : String) : List String → String
  | [] => ""
  | [x] => x
  | x :: xs => x ++ sep ++ joinSep sep xs

def format_cell_links (urls : List String) : String := joinSep "<br>" urls

-- One row of the Store (the EventRow dataclass).
structure EventRow where
  vol : String
  event_type : String
  title : String
  mode : String
  venue_name : String
  address : String
  connpass_url : String
  tweet_urls : List String
  slide_urls : List String
  participants : Nat
  date_yyyy_mm_dd : String
  weekday_ja : String
  time_range : String
deriving DecidableEq

-- The fourteen cells of one rendered row, in the column order of append_rows.
def rowCells (rowId : Int) (r : EventRow) : List String :=
  [String.mk (intReprChars rowId),
   md_escape_cell r.vol,
   md_escape_cell r.event_type,
   md_escape_cell r.title,
   md_escape_cell r.mode,
   md_escape_cell r.venue_name,
   md_escape_cell r.address,
   md_escape_cell r.connpass_url,
   md_escape_cell (format_cell_links r.tweet_urls),
   md_escape_cell (format_cell_links r.slide_urls),
   String.mk (Nat.toDigits 10 r.participants),
   r.date_yyyy_mm_dd,
   md_escape_cell r.weekday_ja,
   md_escape_cell r.time_range]

def renderRow (rowId : Int) (r : EventRow) : String :=
  "| " ++ joinSep " | " (rowCells rowId r) ++ " |"

def renderRowsFrom (startId : Int) : List EventRow → List String
  | [] => []
  | r :: rs => renderRow startId r :: renderRowsFrom (startId + 1) rs

-- `append_rows`: the file is opened in append mode, so the new rendered lines
-- go after the existing content, ids startId, startId+1, ... in list order.
def append_rows (file : List String) (rows : List EventRow) (start_id : Int) : List String :=
  file ++ renderRowsFrom start_id rows

-- The date column is written unescaped; the model of a file as a list of
-- lines is line-accurate when the date carries no pipe or newline characters
-- (true of every `_extract_date` result, which is digits and slashes).
def renderSafe (r : EventRow) : Bool :=
  r.date_yyyy_mm_dd.data.all (fun c => !(c = '|' || c = '\n' || c = '\r'))

-- [c.strip() for c in line.strip("|").split("|")], as the scan loops do.
def parseCols (line : String) : List String :=
  (splitChar '|' (stripAnyBoth ['|'] line.data)).map (fun cs => String.mk (stripWsList cs))

-- The numeric id of a scanned line, when the line is a data row (mirrors the
-- body of the `_next_id_from_file` loop: starts with '|', first cell parses
-- as an int).
def rowIdOfLine (line : String) : Option Int :=
  if startsStr "|" line then
    match parseCols line with
    | [] => none
    | c :: _ => pyIntOf c
  else none

-- Column 7 (connpass URL) of a scanned line having at least 8 columns.
def urlCellOfLine (line : String) : Option String :=
  if startsStr "|" line then
    match (parseCols line).drop 7 with
    | [] => none
    | c :: _ => some c
  else none

def storeIds (lines : List String) : List Int := lines.filterMap rowIdOfLine

def dataLines (lines : List String) : List String :=
  lines.filter (fun l => (rowIdOfLine l).isSome)

-- The source_url cells of the data rows (rows with a numeric id).
def dataUrlCells (lines : List String) : List String :=
  lines.filterMap (fun l => if (rowIdOfLine l).isSome then urlCellOfLine l else none)

-- `_next_id_from_file`'s running maximum.
def max_id_scan (lines : List String) : Int :=
  lines.foldl (fun acc l =>
    match rowIdOfLine l with
    | some v => max acc v
    | none => acc) 0

def next_id_from_file : Option (List String) → Int
  | none => 1
  | some lines => max_id_scan lines + 1

-- `_existing_connpass_urls`.
def existing_connpass_urls : Option (List String) → List String
  | none => []
  | some lines =>
    lines.filterMap (fun l =>
      match urlCellOfLine l with
      | some c => if startsStr "http" c then some c else none
      | none => none)

-- `_ensure_table_header`: keep the file when it exists and has any
-- non-whitespace content, otherwise (re)write the two header lines.
def ensure_table_header : Option (List String) → List String
  | none => headerLines
  | some lines =>
    if lines.any (fun l => !(stripWsList l.data).isEmpty) then lines else headerLines

-- ---------------------------------------------------------------------------
-- Slide-liveness check with its persisted cache (`is_valid_slide_url`)
-- ---------------------------------------------------------------------------

-- Outcome of the ranged curl GET: `none` models a failed curl invocation or
-- unparseable meta line; otherwise the HTTP status and the (decoded,
-- already ≤50000-byte) body.
structure SlideFetch where
  status : Nat
  body : String
deriving DecidableEq

-- The in-memory `_SLIDE_CACHE` dict: later insertions shadow earlier ones.
def SlideCache := List (String × Bool)

def cachePut (c : SlideCache) (u : String) (v : Bool) : SlideCache := (u, v) :: c

def cacheGet (c : SlideCache) (u : String) : Option Bool := List.lookup u c

-- The body inspection of `is_valid_slide_url` after a 200 response: title and
-- snippet "not found" signatures.
def slide_body_dead (body : String) : Bool :=
  let text := body.data.take 50000
  let title :=
    match extract_title_from_html (String.mk text) with
    | some t => t
    | none => ""
  let lowered := String.mk (lowerList title.data)
  if subStr "not found" lowered || subStr "page not found" lowered || subStr "404" lowered then
    true
  else if subStr "ページが見つかりません" title then true
  else
    let snippet := String.mk (lowerList (collapseWs (text.take 2000)))
    subStr "404" snippet && subStr "not found" snippet

-- `is_valid_slide_url`: returns (verdict, cache afterwards, whether the
-- network was consulted).  `net` stands for the curl subprocess.
def is_valid_slide_url (net : String → Option SlideFetch) (cache : SlideCache)
    (url : String) : Bool × SlideCache × Bool :=
  match cacheGet cache url with
  | some v => (v, cache, false)
  | none =>
    match net url with
    | none => (false, cachePut cache url false, true)
    | some fr =>
      if fr.status ≠ 200 then (false, cachePut cache url false, true)
      else if slide_body_dead fr.body then (false, cachePut cache url false, true)
      else (true, cachePut cache url true, true)

-- ---------------------------------------------------------------------------
-- Orchestrator runs
-- ---------------------------------------------------------------------------

-- Sort keys: rebuild sorts by (date, time_range, connpass_url), the
-- incremental batch by (date, connpass_url); both are Python tuple orders.
def rowLeRebuild (a b : EventRow) : Bool :=
  !(cmpLex [a.date_yyyy_mm_dd, a.time_range, a.connpass_url]
      [b.date_yyyy_mm_dd, b.time_range, b.connpass_url] == Ordering.gt)

def rowLeIncr (a b : EventRow) : Bool :=
  !(cmpLex [a.date_yyyy_mm_dd, a.connpass_url]
      [b.date_yyyy_mm_dd, b.connpass_url] == Ordering.gt)

def sortRebuild (rows : List EventRow) : List EventRow := sortByLe rowLeRebuild rows

def sortIncr (rows : List EventRow) : List EventRow := sortByLe rowLeIncr rows

-- Result of a run: the store contents when the run returns 0, or when it
-- aborts with an uncaught exception (`failed`); `none` means the file does
-- not exist.
inductive RunOutcome where
  | ok (store : Option (List String))
  | failed (store : Option (List String))
deriving DecidableEq

def RunOutcome.store : RunOutcome → Option (List String)
  | .ok s => s
  | .failed s => s

-- The incremental page loop (linedc main lines 771-800): `rowOf` stands for
-- `_event_row_from_url` restricted to runs where every parse succeeds, and
-- each inner list of `pages` is the anchor-harvest of one listing page
-- (before its per-page de-duplication).
def run_incr_pages (rowOf : String → EventRow) (file : List String)
    (existing : List String) (currentId remaining : Int) :
    List (List String) → RunOutcome
  | [] => .ok (some file)
  | p :: ps =>
    if remaining ≤ 0 then .ok (some file)
    else
      let urls := dedupKeep [] p
      if urls.isEmpty then .failed (some file)
      else
        let fresh := urls.filter (fun u => !existing.contains u)
        let rows := (sortIncr (fresh.map rowOf)).take remaining.toNat
        if rows.isEmpty then run_incr_pages rowOf file existing currentId remaining ps
        else
          run_incr_pages rowOf (append_rows file rows currentId)
            (existing ++ rows.map (fun r => r.connpass_url))
            (currentId + rows.length) (remaining - rows.length) ps

def run_incremental (rowOf : String → EventRow) (limit : Int)
    (pages : List (List String)) (file0 : Option (List String)) : RunOutcome :=
  let file := ensure_table_header file0
  run_incr_pages rowOf file (existing_connpass_urls (some file))
    (next_id_from_file (some file)) limit pages

-- The per-page URL walk of rebuild mode: sequential in-run de-duplication.
def collect_urls (rowOf : String → EventRow) :
    List String → List String × List EventRow → List String × List EventRow
  | [], st => st
  | u :: us, st =>
    if st.1.contains u then collect_urls rowOf us st
    else collect_urls rowOf us (u :: st.1, st.2 ++ [rowOf u])

-- Rebuild page walk; `none` models the "no event URLs found" RuntimeError.
def collect_pages (rowOf : String → EventRow)
    (st : List String × List EventRow) : List (List String) → Option (List EventRow)
  | [] => some st.2
  | p :: ps =>
    let urls := dedupKeep [] p
    if urls.isEmpty then none
    else collect_pages rowOf (collect_urls rowOf urls st) ps

-- Rebuild (linedc main lines 740-765): walk and accumulate, then sort,
-- truncate the file, write the header, append from id 1.  A failed walk
-- leaves the file untouched.
def run_rebuild (rowOf : String → EventRow) (pages : List (List String))
    (file0 : Option (List String)) : RunOutcome :=
  match collect_pages rowOf ([], []) pages with
  | none => .failed file0
  | some rows =>
    .ok (some (append_rows (ensure_table_header (some [])) (sortRebuild rows) 1))

-- ---------------------------------------------------------------------------
-- Offline rebuild (--raw-dir, linedc main lines 706-738)
-- ---------------------------------------------------------------------------

-- Matcher for the compiled pattern r"/event/(\\d+)/" at one position.  The
-- raw string contains a double backslash, so the regex is the literal text
-- "/event/", an escaped literal backslash, one or more literal 'd'
-- characters, then "/"; the group captures the backslash and the 'd's.
def mRawEventIdAt (l : List Char) : Option (List Char) := do
  let r1 ← mLit "/event/" l
  let r2 ← mChar backslashChar r1
  let ds := r2.takeWhile (· = 'd')
  if ds.isEmpty then none
  else do
    let _ ← mChar '/' (r2.drop ds.length)
    pure (backslashChar :: ds)

def raw_event_id (u : String) : Option String :=
  (searchBy mRawEventIdAt u.data).map String.mk

-- The URL loop of the offline rebuild: a URL that does not match the pattern
-- is skipped, a matching URL whose saved HTML file is absent is skipped, and
-- a page that parses is accumulated in order.  `files` maps a captured event
-- id to the content of raw_dir/events/<id>.html when that file exists;
-- `rowOfHtml html url` stands for `_event_row_from_html` in offline mode and
-- returns `none` when that call raises.
def raw_collect (rowOfHtml : String → String → Option EventRow)
    (files : String → Option String) : List String → Option (List EventRow)
  | [] => some []
  | u :: us =>
    match raw_event_id u with
    | none => raw_collect rowOfHtml files us
    | some gid =>
      match files gid with
      | none => raw_collect rowOfHtml files us
      | some html =>
        match rowOfHtml html u with
        | some r => (raw_collect rowOfHtml files us).map (r :: ·)
        | none => none

def run_raw_rebuild (rowOfHtml : String → String → Option EventRow)
    (files : String → Option String) (urls : List String) : RunOutcome :=
  match raw_collect rowOfHtml files urls with
  | none => .failed none
  | some rows =>
    .ok (some (append_rows (ensure_table_header (some [])) (sortRebuild rows) 1))

-- ---------------------------------------------------------------------------
-- Sequences of runs (for the id-contiguity invariant)
-- ---------------------------------------------------------------------------

inductive RunSpec where
  | incr (rowOf : String → EventRow) (limit : Int) (pages : List (List String))
  | rebuild (rowOf : String → EventRow) (pages : List (List String))

def exec_run : RunSpec → Option (List String) → RunOutcome
  | .incr rowOf limit pages, st => run_incremental rowOf limit pages st
  | .rebuild rowOf pages, st => run_rebuild rowOf pages st

-- Executes runs in order as long as each succeeds; `none` when some run in
-- the sequence fails.
def exec_runs : List RunSpec → Option (List String) → Option (Option (List String))
  | [], st => some st
  | r :: rs, st =>
    match exec_run r st with
    | .ok st' => exec_runs rs st'
    | .failed _ => none

-- Every row a run's parser can produce renders on a single line (its date
-- field is pipe- and newline-free); see `renderSafe`.
def specRenderSafe : RunSpec → Prop
  | .incr rowOf _ _ => ∀ u, renderSafe (rowOf u) = true
  | .rebuild rowOf _ => ∀ u, renderSafe (rowOf u) = true

def storeIdsO : Option (List String) → List Int
  | none => []
  | some lines => storeIds lines

-- ids s n = [s, s+1, ..., s+n-1].
def idListFrom (s : Int) : Nat → List Int
  | 0 => []
  | n + 1 => s :: idListFrom (s + 1) n

-- ---------------------------------------------------------------------------
-- Concrete inputs used by witnesses and counterexamples
-- ---------------------------------------------------------------------------

-- A parsed event row whose fields are fixed except for the source URL
-- (standing for `_event_row_from_url` on a site whose pages all parse alike).
def witnessRow (u : String) : EventRow :=
  { vol := "vol.1", event_type := "本体", title := "LT大会 vol.1", mode := "未定",
    venue_name := "未定", address := "", connpass_url := u, tweet_urls := [],
    slide_urls := [], participants := 12, date_yyyy_mm_dd := "2024/01/01",
    weekday_ja := "月", time_range := "19:00~21:00" }

def c1Runs : List RunSpec :=
  [RunSpec.incr witnessRow 5 [["https://a/1/", "https://a/2/"]],
   RunSpec.incr witnessRow 1 [["https://a/2/", "https://a/3/", "https://a/4/"]],
   RunSpec.rebuild witnessRow [["https://a/9/", "https://a/8/"]]]

def c1FinalStore : Option (List String) := (exec_runs c1Runs none).getD none

-- A store holding one data row, for the C2 witness.
def c2Store : List String := headerLines ++ renderRowsFrom 1 [witnessRow "https://a/1/"]

def c4cands : List String := ["https://togetter.com/li/1", "https://t.co/abc"]

-- A shortener resolver sending t.co/abc to a togetter page that the page
-- also links directly.
def c4resolve : String → Option String := fun u =>
  if u == "https://t.co/abc" then some "https://togetter.com/li/1" else none

def c5cache : SlideCache := [("https://speakerdeck.com/x/dead", false)]

def c5net : String → Option SlideFetch := fun _ => none

-- A detail page realising the C7 scenario.
def c7htmlGood : String :=
  "<html><head><title>LT大会 vol.5</title></head><body>2024/03/10(日) 19:00 ～ 21:00 <p class=\"place_name\">未定</p>申し込み不要</body></html>"

-- The same page with an extra, earlier date/time text: every containment
-- condition of C7 still holds, but the leftmost match wins.
def c7htmlBad : String :=
  "<html><head><title>LT大会 vol.5</title></head><body>2024/03/09(土) 10:00 ～ 11:00 2024/03/10(日) 19:00 ～ 21:00 <p class=\"place_name\">未定</p>申し込み不要</body></html>"

def c10urls : List String := ["https://linedevelopercommunity.connpass.com/event/123/"]


-- ---------------------------------------------------------------------------
-- Helper lemmas: characters and digit strings
-- ---------------------------------------------------------------------------

theorem digitVal_digitChar (d : Nat) (h : d < 10) : digitVal (Nat.digitChar d) = some d := by
  interval_cases d <;> decide

theorem isDigitChar_digitChar (d : Nat) (h : d < 10) : isDigitChar (Nat.digitChar d) = true := by
  interval_cases d <;> decide

theorem isDigit_ne_pipe {c : Char} (h : isDigitChar c = true) : c ≠ '|' := by
  intro he
  subst he
  exact absurd h (by decide)

theorem isDigit_not_ws {c : Char} (h : isDigitChar c = true) : isWsChar c = false := by
  simp only [isDigitChar, Bool.and_eq_true, decide_eq_true_eq] at h
  cases hw : isWsChar c
  · rfl
  · simp only [isWsChar, Bool.or_eq_true, decide_eq_true_eq] at hw
    rcases hw with ((((hw | hw) | hw) | hw) | hw) | hw <;> subst hw <;>
      revert h <;> decide

theorem toDigitsCore_shift (b fuel : Nat) :
    ∀ n ds, Nat.toDigitsCore b fuel n ds = Nat.toDigitsCore b fuel n [] ++ ds := by
  induction fuel with
  | zero => intro n ds; simp [Nat.toDigitsCore]
  | succ fuel ih =>
    intro n ds
    simp only [Nat.toDigitsCore]
    by_cases h : n / b = 0
    · simp [h]
    · simp only [h, if_false]
      rw [ih (n / b) [Nat.digitChar (n % b)], ih (n / b) (Nat.digitChar (n % b) :: ds)]
      simp

theorem toDigits_mem_digit (n : Nat) :
    ∀ c ∈ Nat.toDigits 10 n, isDigitChar c = true := by
  suffices h : ∀ fuel m, ∀ c ∈ Nat.toDigitsCore 10 fuel m [], isDigitChar c = true by
    intro c hc
    exact h (n + 1) n c hc
  intro fuel
  induction fuel with
  | zero => intro m c hc; simp [Nat.toDigitsCore] at hc
  | succ fuel ih =>
    intro m c hc
    simp only [Nat.toDigitsCore] at hc
    by_cases h : m / 10 = 0
    · simp only [h, if_true] at hc
      rcases List.mem_singleton.mp hc with rfl
      exact isDigitChar_digitChar _ (Nat.mod_lt _ (by omega))
    · simp only [h, if_false] at hc
      rw [toDigitsCore_shift] at hc
      rcases List.mem_append.mp hc with h1 | h1
      · exact ih _ c h1
      · rcases List.mem_singleton.mp h1 with rfl
        exact isDigitChar_digitChar _ (Nat.mod_lt _ (by omega))

theorem toDigits_ne_nil (n : Nat) : Nat.toDigits 10 n ≠ [] := by
  show Nat.toDigitsCore 10 (n + 1) n [] ≠ []
  simp only [Nat.toDigitsCore]
  by_cases h : n / 10 = 0
  · simp [h]
  · simp only [h, if_false]
    rw [toDigitsCore_shift]
    simp

theorem parseDigitsAux_append (xs : List Char) :
    ∀ (a : Nat) (ys : List Char),
      parseDigitsAux a (xs ++ ys) =
        match parseDigitsAux a xs with
        | some v => parseDigitsAux v ys
        | none => none := by
  induction xs with
  | nil => intro a ys; simp [parseDigitsAux]
  | cons c cs ih =>
    intro a ys
    simp only [List.cons_append, parseDigitsAux]
    cases digitVal c with
    | none => simp
    | some d => simp [ih]

theorem parseDigitsAux_toDigitsCore :
    ∀ (fuel n : Nat), n < 10 ^ fuel → ∀ a,
      parseDigitsAux a (Nat.toDigitsCore 10 fuel n []) =
        some (a * 10 ^ (Nat.toDigitsCore 10 fuel n []).length + n) := by
  intro fuel
  induction fuel with
  | zero =>
    intro n hn a
    have : n = 0 := by omega
    subst this
    simp [Nat.toDigitsCore, parseDigitsAux]
  | succ fuel ih =>
    intro n hn a
    have hstep : Nat.toDigitsCore 10 (fuel + 1) n [] =
        if n / 10 = 0 then [Nat.digitChar (n % 10)]
        else Nat.toDigitsCore 10 fuel (n / 10) [Nat.digitChar (n % 10)] := rfl
    by_cases h : n / 10 = 0
    · have hn10 : n < 10 := by omega
      have hmod : n % 10 = n := by omega
      rw [hstep, if_pos h]
      simp [parseDigitsAux, hmod, digitVal_digitChar n hn10]
    · rw [hstep, if_neg h, toDigitsCore_shift]
      have hdiv : n / 10 < 10 ^ fuel := by
        have h10 : (10 : Nat) ^ (fuel + 1) = 10 ^ fuel * 10 := by rw [pow_succ]
        exact (Nat.div_lt_iff_lt_mul (by omega)).mpr (h10 ▸ hn)
      rw [parseDigitsAux_append, ih (n / 10) hdiv a]
      have hlt : n % 10 < 10 := Nat.mod_lt _ (by omega)
      simp only [parseDigitsAux, digitVal_digitChar _ hlt, List.length_append,
        List.length_singleton]
      rw [pow_succ]
      congr 1
      ring_nf
      omega

theorem parseDigits_toDigits (n : Nat) : parseDigits (Nat.toDigits 10 n) = some n := by
  have hne := toDigits_ne_nil n
  have hlt : n < 10 ^ (n + 1) := by
    have h2 : n + 1 < 2 ^ (n + 1) := Nat.lt_two_pow (n + 1)
    have h3 : (2 : Nat) ^ (n + 1) ≤ 10 ^ (n + 1) := Nat.pow_le_pow_left (by omega) _
    omega
  have := parseDigitsAux_toDigitsCore (n + 1) n hlt 0
  simp only [parseDigits, Nat.toDigits]
  rw [if_neg (by simpa [List.isEmpty_iff] using hne), this]
  simp

theorem pyInt_intRepr (i : Int) : pyIntOfList (intReprChars i) = some i := by
  cases i with
  | ofNat n =>
    have hne := toDigits_ne_nil n
    rcases hd : Nat.toDigits 10 n with _ | ⟨c, cs⟩
    · exact absurd hd hne
    · have hc : isDigitChar c = true := toDigits_mem_digit n c (hd ▸ List.mem_cons_self c cs)
      have h1 : c ≠ '-' := by intro he; subst he; exact absurd hc (by decide)
      have h2 : c ≠ '+' := by intro he; subst he; exact absurd hc (by decide)
      have := parseDigits_toDigits n
      rw [hd] at this
      simp [intReprChars, hd, pyIntOfList, h1, h2, this]
  | negSucc n =>
    have := parseDigits_toDigits (n + 1)
    simp [intReprChars, pyIntOfList, this, Int.negSucc_eq]

-- ---------------------------------------------------------------------------
-- Helper lemmas: stripping and splitting
-- ---------------------------------------------------------------------------

theorem dropWhile_of_all_false {p : Char → Bool} :
    ∀ {l : List Char}, (∀ c ∈ l, p c = false) → l.dropWhile p = l := by
  intro l h
  cases l with
  | nil => rfl
  | cons c cs => simp [List.dropWhile_cons, h c (List.mem_cons_self c cs)]

theorem stripWs_of_all_false {l : List Char} (h : ∀ c ∈ l, isWsChar c = false) :
    stripWsList l = l := by
  unfold stripWsList
  rw [dropWhile_of_all_false h, dropWhile_of_all_false (by simpa using h), List.reverse_reverse]

theorem mem_stripWs {c : Char} {l : List Char} (h : c ∈ stripWsList l) : c ∈ l := by
  unfold stripWsList at h
  rw [List.mem_reverse] at h
  have h1 := (List.dropWhile_sublist _).mem h
  rw [List.mem_reverse] at h1
  exact (List.dropWhile_sublist _).mem h1

theorem dropWhile_dropWhile (p : Char → Bool) (l : List Char) :
    (l.dropWhile p).dropWhile p = l.dropWhile p := by
  induction l with
  | nil => rfl
  | cons c cs ih =>
    by_cases h : p c
    · simp [List.dropWhile_cons, h, ih]
    · simp [List.dropWhile_cons, h]

theorem dropWhile_snoc_cases (p : Char → Bool) (xs : List Char) (a : Char) :
    (xs ++ [a]).dropWhile p = [] ∨ ∃ ys, (xs ++ [a]).dropWhile p = ys ++ [a] := by
  induction xs with
  | nil =>
    by_cases h : p a
    · left; simp [List.dropWhile_cons, h]
    · right; exact ⟨[], by simp [List.dropWhile_cons, h]⟩
  | cons x xs ih =>
    by_cases h : p x
    · simpa [List.dropWhile_cons, h] using ih
    · right; exact ⟨x :: xs, by simp [List.dropWhile_cons, h]⟩

theorem dropWhile_head_false {p : Char → Bool} {l : List Char} {c : Char} {rest : List Char}
    (h : l.dropWhile p = c :: rest) : p c = false := by
  induction l with
  | nil => simp at h
  | cons x xs ih =>
    by_cases hx : p x
    · rw [List.dropWhile_cons, if_pos hx] at h; exact ih h
    · rw [List.dropWhile_cons, if_neg hx] at h
      cases h
      simpa using hx

theorem stripWs_idem (l : List Char) : stripWsList (stripWsList l) = stripWsList l := by
  rcases hdw : l.dropWhile isWsChar with _ | ⟨c, rest⟩
  · unfold stripWsList
    rw [hdw]
    simp
  · have hc : isWsChar c = false := dropWhile_head_false hdw
    have h1 : stripWsList l = (((c :: rest).reverse).dropWhile isWsChar).reverse := by
      unfold stripWsList
      rw [hdw]
    rw [List.reverse_cons] at h1
    rcases dropWhile_snoc_cases isWsChar rest.reverse c with h2 | ⟨ys, h2⟩
    · rw [h2] at h1
      simp only [List.reverse_nil] at h1
      rw [h1]
      rfl
    · rw [h2] at h1
      have h3 : stripWsList l = c :: ys.reverse := by
        rw [h1, List.reverse_append]
        simp
      rw [h3]
      unfold stripWsList
      rw [List.dropWhile_cons, if_neg (by simp [hc]), List.reverse_cons, List.reverse_reverse,
        ← h2, dropWhile_dropWhile, h2, List.reverse_append]
      simp

theorem stripWs_cons_ws {c : Char} (hc : isWsChar c = true) (l : List Char) :
    stripWsList (c :: l) = stripWsList l := by
  unfold stripWsList
  rw [List.dropWhile_cons, if_pos hc]

theorem stripWs_snoc_ws {c : Char} (hc : isWsChar c = true) (l : List Char) :
    stripWsList (l ++ [c]) = stripWsList l := by
  unfold stripWsList
  rcases hdw : l.dropWhile isWsChar with _ | ⟨d, rest⟩ <;> rw [List.dropWhile_append, hdw]
  · rw [if_pos (by simp)]
    simp [List.dropWhile_cons, hc]
  · rw [if_neg (by simp)]
    have h4 : ((d :: rest) ++ [c]).reverse = c :: (d :: rest).reverse := by
      rw [List.reverse_append]
      simp
    rw [h4, List.dropWhile_cons, if_pos hc]

theorem stripWs_pad (l : List Char) : stripWsList (' ' :: l ++ [' ']) = stripWsList l := by
  rw [List.cons_append, stripWs_cons_ws (show isWsChar ' ' = true by decide),
    stripWs_snoc_ws (show isWsChar ' ' = true by decide)]

theorem splitChar_of_not_mem {sep : Char} : ∀ {l : List Char}, sep ∉ l →
    splitChar sep l = [l] := by
  intro l
  induction l with
  | nil => intro _; rfl
  | cons c cs ih =>
    intro h
    have hc : c ≠ sep := fun he => h (he ▸ List.mem_cons_self c cs)
    have hcs : sep ∉ cs := fun hm => h (List.mem_cons_of_mem c hm)
    rw [splitChar, if_neg hc, ih hcs]

theorem splitChar_append_sep {sep : Char} : ∀ {a : List Char} (b : List Char), sep ∉ a →
    splitChar sep (a ++ sep :: b) = a :: splitChar sep b := by
  intro a
  induction a with
  | nil =>
    intro b _
    simp [splitChar]
  | cons c cs ih =>
    intro b h
    have hc : c ≠ sep := fun he => h (he ▸ List.mem_cons_self c cs)
    have hcs : sep ∉ cs := fun hm => h (List.mem_cons_of_mem c hm)
    rw [List.cons_append, splitChar, if_neg hc, ih b hcs]

-- ---------------------------------------------------------------------------
-- Parsing a rendered row recovers its id and URL cell
-- ---------------------------------------------------------------------------

theorem pipe_not_mem_replacePipeEnt : ∀ l : List Char, '|' ∉ replacePipeEnt l := by
  intro l
  induction l with
  | nil => simp [replacePipeEnt]
  | cons c cs ih =>
    by_cases h : c = '|'
    · simp only [replacePipeEnt, h, if_pos]
      simp only [List.mem_cons]
      push_neg
      exact ⟨by decide, by decide, by decide, by decide, by decide, by decide, ih⟩
    · simp only [replacePipeEnt, if_neg h]
      simp only [List.mem_cons]
      push_neg
      exact ⟨fun he => h he.symm, ih⟩

theorem pipe_not_mem_escape (s : String) : '|' ∉ (md_escape_cell s).data := by
  intro hm
  exact pipe_not_mem_replacePipeEnt _ (mem_stripWs hm)

theorem pipe_not_mem_intRepr (i : Int) : '|' ∉ intReprChars i := by
  cases i with
  | ofNat n =>
    intro hm
    exact isDigit_ne_pipe (toDigits_mem_digit n _ hm) rfl
  | negSucc n =>
    intro hm
    rcases List.mem_cons.mp hm with h | h
    · simp at h
    · exact isDigit_ne_pipe (toDigits_mem_digit (n + 1) _ h) rfl

theorem ws_not_mem_intRepr (i : Int) : ∀ c ∈ intReprChars i, isWsChar c = false := by
  cases i with
  | ofNat n => intro c hc; exact isDigit_not_ws (toDigits_mem_digit n c hc)
  | negSucc n =>
    intro c hc
    rcases List.mem_cons.mp hc with h | h
    · subst h; decide
    · exact isDigit_not_ws (toDigits_mem_digit (n + 1) c h)

theorem renderSafe_no_pipe {r : EventRow} (h : renderSafe r = true) :
    '|' ∉ r.date_yyyy_mm_dd.data := by
  intro hm
  have := List.all_eq_true.mp h _ hm
  simp at this

theorem stripPipes_shape (m : List Char) :
    stripAnyBoth ['|'] ('|' :: ' ' :: (m ++ [' ', '|'])) = ' ' :: (m ++ [' ']) := by
  unfold stripAnyBoth
  rw [List.dropWhile_cons, if_pos (by decide), List.dropWhile_cons, if_neg (by decide)]
  have h1 : (' ' :: (m ++ [' ', '|'])).reverse = '|' :: ' ' :: (m.reverse ++ [' ']) := by
    simp
  rw [h1, List.dropWhile_cons, if_pos (by decide), List.dropWhile_cons, if_neg (by decide)]
  simp

theorem joinSep_cons₂ (sep x y : String) (rest : List String) :
    joinSep sep (x :: y :: rest) = x ++ sep ++ joinSep sep (y :: rest) := rfl

theorem pipe_not_mem_pad {x : String} (hx : '|' ∉ x.data) :
    '|' ∉ ' ' :: (x.data ++ [' ']) := by
  simp only [List.mem_cons, List.mem_append, List.mem_singleton]
  push_neg
  exact ⟨by decide, hx, by decide⟩

theorem split_padded_cells :
    ∀ (cells : List String), cells ≠ [] → (∀ x ∈ cells, '|' ∉ x.data) →
      splitChar '|' (' ' :: ((joinSep " | " cells).data ++ [' '])) =
        cells.map (fun x => ' ' :: (x.data ++ [' '])) := by
  intro cells
  induction cells with
  | nil => intro h _; exact absurd rfl h
  | cons x xs ih =>
    intro _ hpipe
    have hx : '|' ∉ x.data := hpipe x (List.mem_cons_self _ _)
    cases xs with
    | nil =>
      show splitChar '|' (' ' :: ((joinSep " | " [x]).data ++ [' '])) = _
      rw [show joinSep " | " [x] = x from rfl, splitChar_of_not_mem (pipe_not_mem_pad hx)]
      rfl
    | cons y rest =>
      have hJ : (joinSep " | " (x :: y :: rest)).data
          = x.data ++ ([' ', '|', ' '] ++ (joinSep " | " (y :: rest)).data) := by
        rw [joinSep_cons₂, String.data_append, String.data_append]
        simp [List.append_assoc]
      have hshape : ' ' :: ((joinSep " | " (x :: y :: rest)).data ++ [' '])
          = (' ' :: (x.data ++ [' ']))
              ++ '|' :: (' ' :: ((joinSep " | " (y :: rest)).data ++ [' '])) := by
        rw [hJ]
        simp [List.append_assoc]
      rw [hshape, splitChar_append_sep _ (pipe_not_mem_pad hx),
        ih (by simp) (fun z hz => hpipe z (List.mem_cons_of_mem x hz))]
      rfl

theorem stripWs_pad' (l : List Char) :
    stripWsList (' ' :: (l ++ [' '])) = stripWsList l := by
  rw [← List.cons_append]
  exact stripWs_pad l

theorem rowCells_pipe_free (i : Int) (r : EventRow) (h : renderSafe r = true) :
    ∀ x ∈ rowCells i r, '|' ∉ x.data := by
  intro x hx
  simp only [rowCells, List.mem_cons, List.not_mem_nil, or_false] at hx
  rcases hx with rfl | rfl | rfl | rfl | rfl | rfl | rfl | rfl | rfl | rfl | rfl | rfl | rfl | rfl
  · exact pipe_not_mem_intRepr i
  · exact pipe_not_mem_escape _
  · exact pipe_not_mem_escape _
  · exact pipe_not_mem_escape _
  · exact pipe_not_mem_escape _
  · exact pipe_not_mem_escape _
  · exact pipe_not_mem_escape _
  · exact pipe_not_mem_escape _
  · exact pipe_not_mem_escape _
  · exact pipe_not_mem_escape _
  · intro hm; exact isDigit_ne_pipe (toDigits_mem_digit _ _ hm) rfl
  · exact renderSafe_no_pipe h
  · exact pipe_not_mem_escape _
  · exact pipe_not_mem_escape _

theorem renderRow_data (i : Int) (r : EventRow) :
    (renderRow i r).data
      = '|' :: ' ' :: ((joinSep " | " (rowCells i r)).data ++ [' ', '|']) := by
  unfold renderRow
  rw [String.data_append, String.data_append]
  rfl

theorem parseCols_renderRow (i : Int) (r : EventRow) (h : renderSafe r = true) :
    parseCols (renderRow i r) = (rowCells i r).map (fun x => String.mk (stripWsList x.data)) := by
  unfold parseCols
  rw [renderRow_data, stripPipes_shape,
    split_padded_cells (rowCells i r) (by simp [rowCells]) (rowCells_pipe_free i r h),
    List.map_map]
  refine List.map_congr_left ?_
  intro x _
  show String.mk (stripWsList (' ' :: (x.data ++ [' ']))) = String.mk (stripWsList x.data)
  rw [stripWs_pad']

theorem startsPipe_renderRow (i : Int) (r : EventRow) :
    startsStr "|" (renderRow i r) = true := by
  unfold startsStr
  rw [renderRow_data]
  rfl

theorem rowIdOfLine_renderRow (i : Int) (r : EventRow) (h : renderSafe r = true) :
    rowIdOfLine (renderRow i r) = some i := by
  unfold rowIdOfLine
  rw [startsPipe_renderRow, if_pos rfl, parseCols_renderRow i r h]
  show pyIntOf (String.mk (stripWsList (intReprChars i))) = some i
  rw [stripWs_of_all_false (ws_not_mem_intRepr i)]
  exact pyInt_intRepr i

theorem escape_data (s : String) :
    (md_escape_cell s).data = stripWsList (replacePipeEnt (normNl s.data)) := rfl

theorem stripWs_escape (s : String) :
    String.mk (stripWsList (md_escape_cell s).data) = md_escape_cell s := by
  rw [escape_data, stripWs_idem]
  rfl

theorem urlCellOfLine_renderRow (i : Int) (r : EventRow) (h : renderSafe r = true) :
    urlCellOfLine (renderRow i r) = some (md_escape_cell r.connpass_url) := by
  unfold urlCellOfLine
  rw [startsPipe_renderRow, if_pos rfl, parseCols_renderRow i r h]
  show some (String.mk (stripWsList (md_escape_cell r.connpass_url).data)) = _
  rw [stripWs_escape]

-- ---------------------------------------------------------------------------
-- Store id lemmas
-- ---------------------------------------------------------------------------

theorem storeIds_append (a b : List String) : storeIds (a ++ b) = storeIds a ++ storeIds b :=
  List.filterMap_append a b rowIdOfLine

theorem storeIds_renderRowsFrom (rows : List EventRow) :
    ∀ s : Int, (∀ r ∈ rows, renderSafe r = true) →
      storeIds (renderRowsFrom s rows) = idListFrom s rows.length := by
  induction rows with
  | nil => intro s _; rfl
  | cons r rs ih =>
    intro s hsafe
    show storeIds (renderRow s r :: renderRowsFrom (s + 1) rs) = _
    unfold storeIds
    rw [List.filterMap_cons, rowIdOfLine_renderRow s r (hsafe r (List.mem_cons_self _ _))]
    show s :: storeIds (renderRowsFrom (s + 1) rs) = idListFrom s (rs.length + 1)
    rw [ih (s + 1) (fun x hx => hsafe x (List.mem_cons_of_mem r hx))]
    rfl

theorem storeIds_headerLines : storeIds headerLines = [] := by decide

theorem idListFrom_append (n m : Nat) :
    ∀ s : Int, idListFrom s (n + m) = idListFrom s n ++ idListFrom (s + n) m := by
  induction n with
  | zero => intro s; simp [idListFrom]
  | succ n ih =>
    intro s
    have h1 : n + 1 + m = (n + m) + 1 := by omega
    have h2 : s + 1 + (n : Int) = s + ((n + 1 : Nat) : Int) := by push_cast; ring
    rw [h1]
    simp only [idListFrom]
    rw [ih (s + 1), h2]
    simp

theorem max_id_scan_eq_fold (lines : List String) :
    max_id_scan lines = (storeIds lines).foldl max 0 := by
  unfold max_id_scan storeIds
  generalize (0 : Int) = a
  induction lines generalizing a with
  | nil => rfl
  | cons l ls ih =>
    rw [List.foldl_cons, List.filterMap_cons]
    cases rowIdOfLine l with
    | none => exact ih a
    | some v => rw [List.foldl_cons]; exact ih (max a v)

theorem foldl_max_idListFrom (n : Nat) :
    (idListFrom 1 n).foldl max 0 = (n : Int) := by
  suffices h : ∀ (k : Nat) (s a : Int), 0 ≤ a → a ≤ s → s - 1 + k ≥ a →
      (idListFrom s k).foldl max a = if k = 0 then a else s + (k : Int) - 1 by
    rcases Nat.eq_zero_or_pos n with rfl | hn
    · rfl
    · have := h n 1 0 le_rfl (by omega) (by omega)
      rw [this, if_neg (by omega)]
      omega
  intro k
  induction k with
  | zero => intro s a _ _ _; simp [idListFrom]
  | succ k ih =>
    intro s a ha has hsk
    show (idListFrom (s + 1) k).foldl max (max a s) = _
    rcases Nat.eq_zero_or_pos k with rfl | hk
    · simp only [idListFrom, List.foldl_nil]
      rw [if_neg (by omega)]
      push_cast
      rw [max_eq_right has]
      ring
    · rw [ih (s + 1) (max a s) (by omega) (by rw [max_le_iff]; omega) (by omega)]
      rw [if_neg (by omega), if_neg (by omega)]
      push_cast
      ring

theorem next_id_of_contiguous {lines : List String} {n : Nat}
    (h : storeIds lines = idListFrom 1 n) :
    next_id_from_file (some lines) = (n : Int) + 1 := by
  show max_id_scan lines + 1 = (n : Int) + 1
  rw [max_id_scan_eq_fold, h, foldl_max_idListFrom]


-- ---------------------------------------------------------------------------
-- ensure_table_header and sorting lemmas
-- ---------------------------------------------------------------------------

theorem startsStr_pipe_strip {l : String} (hs : startsStr "|" l = true) :
    (stripWsList l.data).isEmpty = false := by
  unfold startsStr at hs
  rcases hd : l.data with _ | ⟨c, rest⟩
  · rw [hd] at hs
    exact absurd hs (by decide)
  · rw [hd] at hs
    have hc : c = '|' := by
      by_contra hne
      unfold startsList at hs
      simp only [Bool.and_eq_true, decide_eq_true_eq] at hs
      exact hne hs.1.symm
    subst hc
    unfold stripWsList
    rw [List.dropWhile_cons, if_neg (by decide)]
    rw [Bool.eq_false_iff]
    intro htrue
    rw [List.isEmpty_iff, List.reverse_eq_nil_iff, List.dropWhile_eq_nil_iff] at htrue
    have := htrue '|' (by simp)
    exact absurd this (by decide)

theorem rowId_none_of_ws {l : String} (h : (stripWsList l.data).isEmpty = true) :
    rowIdOfLine l = none := by
  unfold rowIdOfLine
  cases hs : startsStr "|" l with
  | true => rw [startsStr_pipe_strip hs] at h; cases h
  | false => simp

theorem storeIds_ensure (st : Option (List String)) :
    storeIds (ensure_table_header st) = storeIdsO st := by
  cases st with
  | none => exact storeIds_headerLines
  | some lines =>
    show storeIds (if lines.any _ then lines else headerLines) = storeIds lines
    by_cases h : lines.any (fun l => !(stripWsList l.data).isEmpty) = true
    · rw [if_pos h]
    · rw [if_neg h, storeIds_headerLines]
      have h' : lines.any (fun l => !(stripWsList l.data).isEmpty) = false :=
        Bool.eq_false_iff.mpr h
      symm
      rw [storeIds, List.filterMap_eq_nil_iff]
      intro l hl
      have := List.any_eq_false.mp h' l hl
      exact rowId_none_of_ws (by simpa using this)

theorem insertRow_perm (le : α → α → Bool) (a : α) :
    ∀ l : List α, (insertRow le a l).Perm (a :: l) := by
  intro l
  induction l with
  | nil => exact List.Perm.refl _
  | cons b bs ih =>
    by_cases h : le a b
    · rw [insertRow, if_pos h]
    · rw [insertRow, if_neg h]
      exact (ih.cons b).trans (List.Perm.swap a b bs)

theorem sortByLe_perm (le : α → α → Bool) :
    ∀ l : List α, (sortByLe le l).Perm l := by
  intro l
  induction l with
  | nil => exact List.Perm.refl _
  | cons a as ih =>
    exact (insertRow_perm le a (sortByLe le as)).trans (ih.cons a)

theorem mem_sortByLe {le : α → α → Bool} {x : α} {l : List α}
    (h : x ∈ sortByLe le l) : x ∈ l :=
  (sortByLe_perm le l).mem_iff.mp h

theorem renderSafe_of_mem_batch {rowOf : String → EventRow}
    (hs : ∀ u, renderSafe (rowOf u) = true) {fresh : List String} {k : Nat} {r : EventRow}
    (hr : r ∈ (sortIncr (fresh.map rowOf)).take k) : renderSafe r = true := by
  have h1 := mem_sortByLe (List.mem_of_mem_take hr)
  rcases List.mem_map.mp h1 with ⟨u, _, rfl⟩
  exact hs u

-- ---------------------------------------------------------------------------
-- Id contiguity through runs
-- ---------------------------------------------------------------------------

theorem run_incr_pages_ids (rowOf : String → EventRow)
    (hs : ∀ u, renderSafe (rowOf u) = true) :
    ∀ (pages : List (List String)) (file existing : List String) (rem : Int) (n : Nat),
      storeIds file = idListFrom 1 n →
      ∃ (m : Nat) (f' : List String),
        (run_incr_pages rowOf file existing ((n : Int) + 1) rem pages).store = some f' ∧
        storeIds f' = idListFrom 1 m := by
  intro pages
  induction pages with
  | nil =>
    intro file existing rem n hn
    exact ⟨n, file, rfl, hn⟩
  | cons p ps ih =>
    intro file existing rem n hn
    simp only [run_incr_pages]
    by_cases h0 : rem ≤ 0
    · rw [if_pos h0]
      exact ⟨n, file, rfl, hn⟩
    · rw [if_neg h0]
      by_cases h1 : (dedupKeep [] p).isEmpty = true
      · rw [if_pos h1]
        exact ⟨n, file, rfl, hn⟩
      · rw [if_neg h1]
        by_cases h2 : ((sortIncr (((dedupKeep [] p).filter
            (fun u => !existing.contains u)).map rowOf)).take rem.toNat).isEmpty = true
        · rw [if_pos h2]
          exact ih file existing rem n hn
        · rw [if_neg h2]
          set rows := (sortIncr (((dedupKeep [] p).filter
            (fun u => !existing.contains u)).map rowOf)).take rem.toNat with hrows
          have hsafe : ∀ r ∈ rows, renderSafe r = true := by
            intro r hr
            exact renderSafe_of_mem_batch hs hr
          have hfile' : storeIds (append_rows file rows ((n : Int) + 1))
              = idListFrom 1 (n + rows.length) := by
            unfold append_rows
            rw [storeIds_append, hn, storeIds_renderRowsFrom rows _ hsafe,
              idListFrom_append n rows.length 1]
            have : (1 : Int) + (n : Int) = (n : Int) + 1 := by ring
            rw [this]
          have hcast : ((n : Int) + 1) + (rows.length : Int)
              = ((n + rows.length : Nat) : Int) + 1 := by push_cast; ring
          rw [hcast]
          exact ih _ _ _ _ hfile'

theorem mem_collect_urls (rowOf : String → EventRow) :
    ∀ (us : List String) (st : List String × List EventRow) (r : EventRow),
      r ∈ (collect_urls rowOf us st).2 → r ∈ st.2 ∨ ∃ u, r = rowOf u := by
  intro us
  induction us with
  | nil => intro st r hr; exact Or.inl hr
  | cons u us ih =>
    intro st r hr
    rw [collect_urls] at hr
    by_cases h : st.1.contains u = true
    · rw [if_pos h] at hr
      exact ih st r hr
    · rw [if_neg h] at hr
      rcases ih _ r hr with h1 | h1
      · rcases List.mem_append.mp h1 with h2 | h2
        · exact Or.inl h2
        · exact Or.inr ⟨u, List.mem_singleton.mp h2⟩
      · exact Or.inr h1

theorem mem_collect_pages (rowOf : String → EventRow) :
    ∀ (pages : List (List String)) (st : List String × List EventRow) (rows : List EventRow),
      collect_pages rowOf st pages = some rows →
      ∀ r ∈ rows, r ∈ st.2 ∨ ∃ u, r = rowOf u := by
  intro pages
  induction pages with
  | nil =>
    intro st rows h r hr
    simp only [collect_pages, Option.some_inj] at h
    subst h
    exact Or.inl hr
  | cons p ps ih =>
    intro st rows h r hr
    rw [collect_pages] at h
    by_cases h1 : (dedupKeep [] p).isEmpty = true
    · rw [if_pos h1] at h; cases h
    · rw [if_neg h1] at h
      rcases ih _ rows h r hr with h2 | h2
      · exact mem_collect_urls rowOf _ _ r h2
      · exact Or.inr h2

theorem run_rebuild_ids (rowOf : String → EventRow)
    (hs : ∀ u, renderSafe (rowOf u) = true) (pages : List (List String))
    (file0 st' : Option (List String))
    (h : run_rebuild rowOf pages file0 = .ok st') :
    ∃ m : Nat, storeIdsO st' = idListFrom 1 m := by
  unfold run_rebuild at h
  cases hc : collect_pages rowOf ([], []) pages with
  | none => rw [hc] at h; cases h
  | some rows =>
    rw [hc] at h
    cases h
    refine ⟨(sortRebuild rows).length, ?_⟩
    show storeIds (append_rows (ensure_table_header (some [])) (sortRebuild rows) 1) = _
    unfold append_rows
    rw [storeIds_append]
    have hens : storeIds (ensure_table_header (some [])) = [] := by decide
    rw [hens, List.nil_append, storeIds_renderRowsFrom _ 1 ?hsafe]
    case hsafe =>
      intro r hr
      rcases mem_collect_pages rowOf pages ([], []) rows hc r (mem_sortByLe hr) with h1 | ⟨u, rfl⟩
      · simp at h1
      · exact hs u

theorem exec_runs_ids :
    ∀ (runs : List RunSpec) (st : Option (List String)),
      (∀ spec ∈ runs, specRenderSafe spec) →
      (∃ n, storeIdsO st = idListFrom 1 n) →
      ∀ f, exec_runs runs st = some f → ∃ m, storeIdsO f = idListFrom 1 m := by
  intro runs
  induction runs with
  | nil =>
    intro st _ hn f h
    simp only [exec_runs, Option.some_inj] at h
    subst h
    exact hn
  | cons r rs ih =>
    intro st hsafe hn f h
    rw [exec_runs] at h
    cases ho : exec_run r st with
    | failed s => rw [ho] at h; cases h
    | ok st' =>
      rw [ho] at h
      refine ih st' (fun s hs => hsafe s (List.mem_cons_of_mem r hs)) ?_ f h
      rcases hn with ⟨n, hn⟩
      cases r with
      | incr rowOf limit pages =>
        have hsr : ∀ u, renderSafe (rowOf u) = true := hsafe _ (List.mem_cons_self _ _)
        simp only [exec_run, run_incremental] at ho
        have hfile : storeIds (ensure_table_header st) = idListFrom 1 n := by
          rw [storeIds_ensure]; exact hn
        have hnext : next_id_from_file (some (ensure_table_header st)) = (n : Int) + 1 :=
          next_id_of_contiguous hfile
        rw [hnext] at ho
        rcases run_incr_pages_ids rowOf hsr pages (ensure_table_header st)
          (existing_connpass_urls (some (ensure_table_header st))) limit n hfile with
          ⟨m, f', hst, hm⟩
        rw [ho] at hst
        simp only [RunOutcome.store] at hst
        subst hst
        exact ⟨m, hm⟩
      | rebuild rowOf pages =>
        exact run_rebuild_ids rowOf (hsafe _ (List.mem_cons_self _ _)) pages st st' ho

theorem idListFrom_length : ∀ (n : Nat) (s : Int), (idListFrom s n).length = n := by
  intro n
  induction n with
  | zero => intro s; rfl
  | succ n ih => intro s; show (idListFrom (s + 1) n).length + 1 = n + 1; rw [ih]

-- ---------------------------------------------------------------------------
-- Claim theorems
-- ---------------------------------------------------------------------------

/-- C1: starting from an absent, empty, or header-only store, any sequence of
successful rebuild or incremental runs leaves the store's id column exactly
1, 2, ..., n in file order; the next id is always computed as
max(existing id) + 1, which is 1 for an absent file or a file without numeric
rows.  (Rows are assumed renderable on one line: dates carry no pipe or
newline, as `_extract_date` guarantees.) -/
theorem c1_id_contiguity (runs : List RunSpec) (f0 : Option (List String))
    (h0 : f0 = none ∨ f0 = some [] ∨ f0 = some headerLines)
    (hsafe : ∀ spec ∈ runs, specRenderSafe spec)
    (f : Option (List String)) (h : exec_runs runs f0 = some f) :
    storeIdsO f = idListFrom 1 (storeIdsO f).length ∧
    next_id_from_file f = ((storeIdsO f).length : Int) + 1 ∧
    next_id_from_file none = 1 ∧
    (∀ lines, storeIds lines = [] → next_id_from_file (some lines) = 1) := by
  have hinit : ∃ n, storeIdsO f0 = idListFrom 1 n := by
    rcases h0 with rfl | rfl | rfl
    · exact ⟨0, rfl⟩
    · exact ⟨0, rfl⟩
    · exact ⟨0, storeIds_headerLines⟩
  rcases exec_runs_ids runs f0 hsafe hinit f h with ⟨m, hm⟩
  have hlen : (storeIdsO f).length = m := by rw [hm, idListFrom_length]
  refine ⟨by rw [hlen, hm], ?_, rfl, ?_⟩
  · cases f with
    | none =>
      show (1 : Int) = ((storeIdsO none).length : Int) + 1
      decide
    | some lines =>
      rw [hlen]
      exact next_id_of_contiguous (by rw [← hm]; rfl)
  · intro lines hl
    show max_id_scan lines + 1 = 1
    rw [max_id_scan_eq_fold, hl]
    rfl

theorem c1_id_contiguity_witness :
    storeIdsO c1FinalStore = idListFrom 1 (storeIdsO c1FinalStore).length ∧
    next_id_from_file c1FinalStore = ((storeIdsO c1FinalStore).length : Int) + 1 := by
  have hsafe : ∀ spec ∈ c1Runs, specRenderSafe spec := by
    intro spec hspec
    simp only [c1Runs, List.mem_cons, List.not_mem_nil, or_false] at hspec
    rcases hspec with rfl | rfl | rfl
    · exact fun u => rfl
    · exact fun u => rfl
    · exact fun u => rfl
  have h := c1_id_contiguity c1Runs none (Or.inl rfl) hsafe c1FinalStore (by decide)
  exact ⟨h.1, h.2.1⟩

-- ---------------------------------------------------------------------------
-- Append-only monotonicity (C3)
-- ---------------------------------------------------------------------------

theorem dataLines_headerLines : dataLines headerLines = [] := by decide

theorem dataLines_ensure (lines : List String) :
    dataLines (ensure_table_header (some lines)) = dataLines lines := by
  show dataLines (if lines.any _ then lines else headerLines) = dataLines lines
  by_cases h : lines.any (fun l => !(stripWsList l.data).isEmpty) = true
  · rw [if_pos h]
  · rw [if_neg h, dataLines_headerLines]
    have h' : lines.any (fun l => !(stripWsList l.data).isEmpty) = false :=
      Bool.eq_false_iff.mpr h
    symm
    rw [dataLines, List.filter_eq_nil_iff]
    intro l hl
    have := List.any_eq_false.mp h' l hl
    simp [rowId_none_of_ws (by simpa using this)]

theorem run_incr_pages_mono (rowOf : String → EventRow) :
    ∀ (pages : List (List String)) (file existing : List String) (cid rem : Int),
      ∃ f' tail, (run_incr_pages rowOf file existing cid rem pages).store = some f' ∧
        f' = file ++ tail := by
  intro pages
  induction pages with
  | nil => intro file existing cid rem; exact ⟨file, [], rfl, by simp⟩
  | cons p ps ih =>
    intro file existing cid rem
    simp only [run_incr_pages]
    by_cases h0 : rem ≤ 0
    · rw [if_pos h0]; exact ⟨file, [], rfl, by simp⟩
    · rw [if_neg h0]
      by_cases h1 : (dedupKeep [] p).isEmpty = true
      · rw [if_pos h1]; exact ⟨file, [], rfl, by simp⟩
      · rw [if_neg h1]
        by_cases h2 : ((sortIncr (((dedupKeep [] p).filter
            (fun u => !existing.contains u)).map rowOf)).take rem.toNat).isEmpty = true
        · rw [if_pos h2]; exact ih file existing cid rem
        · rw [if_neg h2]
          rcases ih (append_rows file ((sortIncr (((dedupKeep [] p).filter
                (fun u => !existing.contains u)).map rowOf)).take rem.toNat) cid) _ _ _ with
            ⟨f', tail, hst, heq⟩
          refine ⟨f', renderRowsFrom cid ((sortIncr (((dedupKeep [] p).filter
              (fun u => !existing.contains u)).map rowOf)).take rem.toNat) ++ tail, hst, ?_⟩
          rw [heq]
          unfold append_rows
          rw [List.append_assoc]

theorem dataLines_append (a b : List String) :
    dataLines (a ++ b) = dataLines a ++ dataLines b :=
  List.filter_append a b

/-- C3: `append_rows` only appends: the new file is the old file followed by
the rendered rows, whose ids are startId, startId+1, ... in list order; in
consequence an incremental run extends the store and every data row present
before the run is still present, unchanged and in place, afterwards. -/
theorem c3_append_only :
    (∀ (file : List String) (rows : List EventRow) (sid : Int),
      append_rows file rows sid = file ++ renderRowsFrom sid rows) ∧
    (∀ (rows : List EventRow) (sid : Int), (∀ r ∈ rows, renderSafe r = true) →
      storeIds (renderRowsFrom sid rows) = idListFrom sid rows.length) ∧
    (∀ (rowOf : String → EventRow) (limit : Int) (pages : List (List String))
        (ls0 : List String),
      ∃ f' tail, (run_incremental rowOf limit pages (some ls0)).store = some f' ∧
        f' = ensure_table_header (some ls0) ++ tail ∧
        dataLines f' = dataLines ls0 ++ dataLines tail) := by
  refine ⟨fun _ _ _ => rfl, fun rows sid hs => storeIds_renderRowsFrom rows sid hs, ?_⟩
  intro rowOf limit pages ls0
  rcases run_incr_pages_mono rowOf pages (ensure_table_header (some ls0))
    (existing_connpass_urls (some (ensure_table_header (some ls0))))
    (next_id_from_file (some (ensure_table_header (some ls0)))) limit with ⟨f', tail, hst, heq⟩
  refine ⟨f', tail, hst, heq, ?_⟩
  rw [heq, dataLines_append, dataLines_ensure]

theorem c3_append_only_witness :
    append_rows c2Store [witnessRow "https://a/7/"] 2
      = c2Store ++ renderRowsFrom 2 [witnessRow "https://a/7/"] ∧
    storeIds (renderRowsFrom 2 [witnessRow "https://a/7/"]) = idListFrom 2 1 ∧
    ∃ f' tail, (run_incremental witnessRow 5 [["https://a/7/"]] (some c2Store)).store = some f' ∧
      f' = ensure_table_header (some c2Store) ++ tail ∧
      dataLines f' = dataLines c2Store ++ dataLines tail := by
  refine ⟨c3_append_only.1 c2Store [witnessRow "https://a/7/"] 2,
    c3_append_only.2.1 [witnessRow "https://a/7/"] 2 ?_,
    c3_append_only.2.2 witnessRow 5 [["https://a/7/"]] c2Store⟩
  intro r hr
  rcases List.mem_singleton.mp hr with rfl
  rfl

-- ---------------------------------------------------------------------------
-- Empty listing pages are fatal (C9)
-- ---------------------------------------------------------------------------

theorem dedupKeep_nil_iff (p : List String) : (dedupKeep [] p).isEmpty = true ↔ p = [] := by
  constructor
  · intro h
    cases p with
    | nil => rfl
    | cons u us =>
      rw [dedupKeep, if_neg (by simp)] at h
      cases h
  · intro h; subst h; rfl

theorem collect_pages_empty_page (rowOf : String → EventRow) :
    ∀ (pre : List (List String)), (∀ p ∈ pre, p ≠ []) →
      ∀ (st : List String × List EventRow) (rest : List (List String)),
        collect_pages rowOf st (pre ++ ([] : List String) :: rest) = none := by
  intro pre
  induction pre with
  | nil =>
    intro _ st rest
    show collect_pages rowOf st (([] : List String) :: rest) = none
    rw [collect_pages, if_pos (by rfl)]
  | cons p pre ih =>
    intro hpre st rest
    rw [List.cons_append, collect_pages,
      if_neg (fun hemp => hpre p (List.mem_cons_self _ _) ((dedupKeep_nil_iff p).mp hemp))]
    exact ih (fun q hq => hpre q (List.mem_cons_of_mem p hq)) _ rest

/-- C9: a walked listing page with zero event URLs aborts the run: the
incremental loop, on reaching an empty page while new records are still
wanted, fails with the store exactly as accumulated so far (earlier pages'
appends retained, nothing from this page appended); a rebuild whose walk
meets an empty page fails with the store untouched. -/
theorem c9_empty_listing_fatal :
    (∀ (rowOf : String → EventRow) (file existing : List String) (cid rem : Int)
        (rest : List (List String)), 0 < rem →
      run_incr_pages rowOf file existing cid rem (([] : List String) :: rest)
        = .failed (some file)) ∧
    (∀ (rowOf : String → EventRow) (pre rest : List (List String))
        (f0 : Option (List String)), (∀ p ∈ pre, p ≠ []) →
      run_rebuild rowOf (pre ++ ([] : List String) :: rest) f0 = .failed f0) := by
  constructor
  · intro rowOf file existing cid rem rest hrem
    simp only [run_incr_pages]
    rw [if_neg (by omega), if_pos (by rfl)]
  · intro rowOf pre rest f0 hpre
    unfold run_rebuild
    rw [collect_pages_empty_page rowOf pre hpre ([], []) rest]

theorem c9_empty_listing_fatal_witness :
    run_incr_pages witnessRow headerLines [] 1 1 [([] : List String)]
      = .failed (some headerLines) ∧
    run_rebuild witnessRow ([["https://a/1/"]] ++ ([] : List String) :: []) none
      = .failed none := by
  constructor
  · exact c9_empty_listing_fatal.1 witnessRow headerLines [] 1 1 [] (by decide)
  · refine c9_empty_listing_fatal.2 witnessRow [["https://a/1/"]] [] none ?_
    intro p hp
    rcases List.mem_singleton.mp hp with rfl
    simp

-- ---------------------------------------------------------------------------
-- Offline rebuild and the backslashed event-id pattern (C10)
-- ---------------------------------------------------------------------------

theorem mLit_some {pat : String} {l r : List Char} (h : mLit pat l = some r) :
    r = l.drop pat.data.length := by
  unfold mLit at h
  by_cases hs : startsList pat.data l = true
  · rw [if_pos hs] at h
    cases h
    rfl
  · rw [if_neg hs] at h
    cases h

theorem mChar_some {c : Char} {l r : List Char} (h : mChar c l = some r) : l = c :: r := by
  rcases l with _ | ⟨x, xs⟩
  · exact absurd h (by simp [mChar])
  · have h' : (if x = c then some xs else none) = some r := h
    by_cases hx : x = c
    · rw [if_pos hx] at h'
      cases h'
      rw [hx]
    · rw [if_neg hx] at h'
      cases h'

theorem mRawEventIdAt_backslash {l g : List Char} (h : mRawEventIdAt l = some g) :
    backslashChar ∈ l := by
  unfold mRawEventIdAt at h
  rcases hL : mLit "/event/" l with _ | r1
  · rw [hL] at h
    simp at h
  · rw [hL] at h
    simp only [Option.bind_eq_bind, Option.some_bind] at h
    rcases hc : mChar backslashChar r1 with _ | r2
    · rw [hc] at h
      simp at h
    · have hr1 : r1 = backslashChar :: r2 := mChar_some hc
      have hmem : backslashChar ∈ r1 := by
        rw [hr1]
        exact List.mem_cons_self _ _
      rw [mLit_some hL] at hmem
      exact List.mem_of_mem_drop hmem

theorem searchBy_some_mem {α : Type} {f : List Char → Option α} :
    ∀ {l : List Char} {a : α}, searchBy f l = some a →
      ∃ l', f l' = some a ∧ ∀ c ∈ l', c ∈ l := by
  intro l
  induction l with
  | nil =>
    intro a h
    exact ⟨[], h, by simp⟩
  | cons c rest ih =>
    intro a h
    rw [searchBy] at h
    rcases hf : f (c :: rest) with _ | b
    · rw [hf] at h
      rcases ih h with ⟨l', h1, h2⟩
      exact ⟨l', h1, fun d hd => List.mem_cons_of_mem c (h2 d hd)⟩
    · rw [hf] at h
      cases h
      exact ⟨c :: rest, hf, fun d hd => hd⟩

theorem raw_event_id_none {u : String} (h : backslashChar ∉ u.data) :
    raw_event_id u = none := by
  unfold raw_event_id
  rcases hs : searchBy mRawEventIdAt u.data with _ | g
  · rfl
  · exfalso
    rcases searchBy_some_mem hs with ⟨l', h1, h2⟩
    exact h (h2 backslashChar (mRawEventIdAt_backslash h1))

theorem raw_collect_all_skipped (rowOfHtml : String → String → Option EventRow)
    (files : String → Option String) :
    ∀ urls : List String, (∀ u ∈ urls, backslashChar ∉ u.data) →
      raw_collect rowOfHtml files urls = some [] := by
  intro urls
  induction urls with
  | nil => intro _; rfl
  | cons u us ih =>
    intro h
    rw [raw_collect, raw_event_id_none (h u (List.mem_cons_self _ _))]
    exact ih (fun v hv => h v (List.mem_cons_of_mem u hv))

/-- C10: in offline rebuild mode a URL not matching the compiled pattern
r"/event/(\\d+)/" is skipped, a matching URL without a saved HTML file is
skipped, and — since the raw-string pattern demands a literal backslash
before the 'd's — a list of standard event URLs (no backslash anywhere)
yields zero parsed rows and an output file holding only the table header. -/
theorem c10_raw_rebuild_backslash :
    (∀ (rowOfHtml : String → String → Option EventRow) (files : String → Option String)
        (u : String) (us : List String), raw_event_id u = none →
      raw_collect rowOfHtml files (u :: us) = raw_collect rowOfHtml files us) ∧
    (∀ (rowOfHtml : String → String → Option EventRow) (files : String → Option String)
        (u : String) (us : List String) (gid : String),
      raw_event_id u = some gid → files gid = none →
      raw_collect rowOfHtml files (u :: us) = raw_collect rowOfHtml files us) ∧
    (∀ (rowOfHtml : String → String → Option EventRow) (files : String → Option String)
        (urls : List String), (∀ u ∈ urls, backslashChar ∉ u.data) →
      run_raw_rebuild rowOfHtml files urls = .ok (some headerLines)) := by
  refine ⟨?_, ?_, ?_⟩
  · intro rowOfHtml files u us h
    rw [raw_collect, h]
  · intro rowOfHtml files u us gid h hf
    rw [raw_collect, h]
    simp only [hf]
  · intro rowOfHtml files urls h
    unfold run_raw_rebuild
    rw [raw_collect_all_skipped rowOfHtml files urls h]
    show RunOutcome.ok (some (append_rows (ensure_table_header (some [])) [] 1)) = _
    unfold append_rows renderRowsFrom
    rw [List.append_nil]
    decide

theorem c10_raw_rebuild_backslash_witness :
    run_raw_rebuild (fun _ _ => none) (fun _ => none) c10urls = .ok (some headerLines) := by
  refine c10_raw_rebuild_backslash.2.2 (fun _ _ => none) (fun _ => none) c10urls ?_
  intro u hu
  rcases List.mem_singleton.mp hu with rfl
  decide

-- ---------------------------------------------------------------------------
-- Link classification examples (C6)
-- ---------------------------------------------------------------------------

/-- C6: classification is a pure function of host and path:
togetter.com/li/... is a tweet-summary URL, the images.togetter.com CDN host
is discarded, a Google Docs document is discarded, and a Google Docs
presentation is kept as a slide URL; the classification loop routes these
four links accordingly. -/
theorem c6_classification :
    classify_link "https://togetter.com/li/123" = .tweet ∧
    classify_link "https://images.togetter.com/x.png" = .discard ∧
    classify_link "https://docs.google.com/document/d/abc" = .discard ∧
    classify_link "https://docs.google.com/presentation/d/abc" = .slide ∧
    classify_links (fun _ => none) false
        ["https://togetter.com/li/123", "https://images.togetter.com/x.png",
         "https://docs.google.com/document/d/abc", "https://docs.google.com/presentation/d/abc"]
      = (["https://togetter.com/li/123"], ["https://docs.google.com/presentation/d/abc"]) := by
  refine ⟨by decide, by decide, by decide, by decide, by decide⟩

-- ---------------------------------------------------------------------------
-- Slide-liveness cache behaviour (C5)
-- ---------------------------------------------------------------------------

theorem cacheGet_put (c : SlideCache) (u : String) (v : Bool) :
    cacheGet (cachePut c u v) u = some v := by
  simp [cacheGet, cachePut, List.lookup]

/-- C5: `is_valid_slide_url` consults the cache first — on a hit it returns
the cached verdict with no network access (in particular a cached false
verdict is never re-checked) — and on a miss every return path records the
computed verdict in the cache. -/
theorem c5_cache_first_write_back (net : String → Option SlideFetch)
    (cache : SlideCache) (url : String) :
    (∀ v, cacheGet cache url = some v →
      is_valid_slide_url net cache url = (v, cache, false)) ∧
    (cacheGet cache url = some false →
      is_valid_slide_url net cache url = (false, cache, false)) ∧
    (cacheGet cache url = none →
      cacheGet (is_valid_slide_url net cache url).2.1 url
        = some (is_valid_slide_url net cache url).1 ∧
      (is_valid_slide_url net cache url).2.2 = true) := by
  refine ⟨?_, ?_, ?_⟩
  · intro v hv
    unfold is_valid_slide_url
    rw [hv]
  · intro hv
    unfold is_valid_slide_url
    rw [hv]
  · intro hv
    unfold is_valid_slide_url
    rw [hv]
    cases net url with
    | none => exact ⟨cacheGet_put cache url false, rfl⟩
    | some fr =>
      simp only []
      split
      · exact ⟨cacheGet_put cache url false, rfl⟩
      · split
        · exact ⟨cacheGet_put cache url false, rfl⟩
        · exact ⟨cacheGet_put cache url true, rfl⟩

theorem c5_cache_first_write_back_witness :
    is_valid_slide_url c5net c5cache "https://speakerdeck.com/x/dead"
      = (false, c5cache, false) ∧
    cacheGet (is_valid_slide_url c5net c5cache "https://a").2.1 "https://a"
      = some (is_valid_slide_url c5net c5cache "https://a").1 := by
  exact ⟨(c5_cache_first_write_back c5net c5cache "https://speakerdeck.com/x/dead").2.1 (by decide),
    ((c5_cache_first_write_back c5net c5cache "https://a").2.2 (by decide)).1⟩

-- ---------------------------------------------------------------------------
-- Link lists are duplicate-free... except through shortener resolution (C4)
-- ---------------------------------------------------------------------------

theorem dedupKeep_spec :
    ∀ (l seen : List String), (dedupKeep seen l).Nodup ∧
      ∀ x ∈ dedupKeep seen l, x ∈ l ∧ seen.contains x = false := by
  intro l
  induction l with
  | nil => intro seen; exact ⟨List.nodup_nil, by simp [dedupKeep]⟩
  | cons u us ih =>
    intro seen
    by_cases h : seen.contains u = true
    · rw [dedupKeep, if_pos h]
      rcases ih seen with ⟨h1, h2⟩
      exact ⟨h1, fun x hx => ⟨List.mem_cons_of_mem u (h2 x hx).1, (h2 x hx).2⟩⟩
    · rw [dedupKeep, if_neg h]
      rcases ih (u :: seen) with ⟨h1, h2⟩
      refine ⟨List.nodup_cons.mpr ⟨fun hmem => ?_, h1⟩, fun x hx => ?_⟩
      · have := (h2 u hmem).2
        simp [List.contains_cons] at this
      · rcases List.mem_cons.mp hx with rfl | hx
        · exact ⟨List.mem_cons_self _ _, Bool.eq_false_iff.mpr h⟩
        · have h3 := h2 x hx
          have h4 : seen.contains x = false := by
            have := h3.2
            simp only [List.contains_cons, Bool.or_eq_false_iff] at this
            exact this.2
          exact ⟨List.mem_cons_of_mem u h3.1, h4⟩

theorem exLinksAux_spec :
    ∀ (cands seen out : List String), out.Nodup →
      (∀ x ∈ out, seen.contains x = true) →
      (exLinksAux seen out cands).Nodup ∧
      ∀ x ∈ exLinksAux seen out cands,
        x ∈ out ∨ ∃ raw ∈ cands, normalize_candidate_url raw = some x := by
  intro cands
  induction cands with
  | nil => intro seen out h1 _; exact ⟨h1, fun x hx => Or.inl hx⟩
  | cons raw rest ih =>
    intro seen out h1 h2
    cases hn : normalize_candidate_url raw with
    | none =>
      simp only [exLinksAux, hn]
      rcases ih seen out h1 h2 with ⟨ha, hb⟩
      refine ⟨ha, fun x hx => ?_⟩
      rcases hb x hx with h | ⟨r2, hr2, hnr⟩
      · exact Or.inl h
      · exact Or.inr ⟨r2, List.mem_cons_of_mem _ hr2, hnr⟩
    | some href =>
      simp only [exLinksAux, hn]
      have hrec : ∀ (s o : List String), o.Nodup → (∀ x ∈ o, s.contains x = true) →
          (exLinksAux s o rest).Nodup ∧
          ∀ x ∈ exLinksAux s o rest,
            x ∈ o ∨ ∃ r2 ∈ raw :: rest, normalize_candidate_url r2 = some x := by
        intro s o ha hb
        rcases ih s o ha hb with ⟨hc, hd⟩
        refine ⟨hc, fun x hx => ?_⟩
        rcases hd x hx with h | ⟨r2, hr2, hnr⟩
        · exact Or.inl h
        · exact Or.inr ⟨r2, List.mem_cons_of_mem _ hr2, hnr⟩
      by_cases hh1 : startsStr "#" href = true
      · rw [if_pos hh1]; exact hrec seen out h1 h2
      · rw [if_neg hh1]
        by_cases hh2 : startsStr "javascript:" href = true
        · rw [if_pos hh2]; exact hrec seen out h1 h2
        · rw [if_neg hh2]
          by_cases hh3 : seen.contains href = true
          · rw [if_pos hh3]; exact hrec seen out h1 h2
          · rw [if_neg hh3]
            have hnd : (out ++ [href]).Nodup := by
              rw [(List.perm_append_singleton href out).nodup_iff, List.nodup_cons]
              exact ⟨fun hmem => hh3 (h2 href hmem), h1⟩
            have hsub : ∀ x ∈ out ++ [href], (href :: seen).contains x = true := by
              intro x hx
              rcases List.mem_append.mp hx with hx | hx
              · have hcx := h2 x hx
                simp only [List.contains_cons, Bool.or_eq_true]
                exact Or.inr hcx
              · rcases List.mem_singleton.mp hx with rfl
                simp [List.contains_cons]
            rcases ih (href :: seen) (out ++ [href]) hnd hsub with ⟨ha, hb⟩
            refine ⟨ha, fun x hx => ?_⟩
            rcases hb x hx with h | ⟨r2, hr2, hnr⟩
            · rcases List.mem_append.mp h with h | h
              · exact Or.inl h
              · rcases List.mem_singleton.mp h with rfl
                exact Or.inr ⟨raw, List.mem_cons_self _ _, hn⟩
            · exact Or.inr ⟨r2, List.mem_cons_of_mem _ hr2, hnr⟩

theorem extract_links_spec (cands : List String) :
    (extract_links cands).Nodup ∧
    ∀ x ∈ extract_links cands, ∃ raw ∈ cands, normalize_candidate_url raw = some x := by
  rcases exLinksAux_spec cands [] [] List.nodup_nil (by simp) with ⟨h1, h2⟩
  refine ⟨h1, fun x hx => ?_⟩
  rcases h2 x hx with h | h
  · simp at h
  · exact h

theorem classify_step_cases (resolve : String → Option String)
    (acc : List String × List String) (l : String) :
    classify_step resolve false acc l = (acc.1 ++ [l], acc.2) ∨
    classify_step resolve false acc l = (acc.1, acc.2 ++ [l]) ∨
    classify_step resolve false acc l = acc := by
  unfold classify_step
  simp only [Bool.false_and, Bool.false_eq_true, if_false]
  by_cases h1 : is_tweet_summary_url l = true
  · rw [if_pos h1]
    exact Or.inl rfl
  · rw [if_neg h1]
    by_cases h2 : isSlideDomain (url_domain l) = true
    · rw [if_pos h2]
      by_cases h3 : (url_domain l == "docs.google.com" && !subStr "/presentation/" l) = true
      · rw [if_pos h3]
        exact Or.inr (Or.inr rfl)
      · rw [if_neg h3]
        exact Or.inr (Or.inl rfl)
    · rw [if_neg h2]
      exact Or.inr (Or.inr rfl)

theorem classify_fold_sublists (resolve : String → Option String) :
    ∀ (links : List String) (acc : List String × List String),
      ∃ tw sl, links.foldl (classify_step resolve false) acc = (acc.1 ++ tw, acc.2 ++ sl) ∧
        tw.Sublist links ∧ sl.Sublist links := by
  intro links
  induction links with
  | nil => intro acc; exact ⟨[], [], by simp, List.nil_sublist _, List.nil_sublist _⟩
  | cons l ls ih =>
    intro acc
    rw [List.foldl_cons]
    rcases classify_step_cases resolve acc l with h | h | h <;> rw [h]
    · rcases ih (acc.1 ++ [l], acc.2) with ⟨tw, sl, heq, htw, hsl⟩
      refine ⟨l :: tw, sl, ?_, htw.cons₂ l, hsl.cons l⟩
      rw [heq]
      simp [List.append_assoc]
    · rcases ih (acc.1, acc.2 ++ [l]) with ⟨tw, sl, heq, htw, hsl⟩
      refine ⟨tw, l :: sl, ?_, htw.cons l, hsl.cons₂ l⟩
      rw [heq]
      simp [List.append_assoc]
    · rcases ih acc with ⟨tw, sl, heq, htw, hsl⟩
      exact ⟨tw, sl, heq, htw.cons l, hsl.cons l⟩

/-- C4 counterexample: with shortener resolution active, a page linking both
a togetter summary directly and a t.co shortener resolving to that same
summary yields a tweet_urls list with a duplicate entry — the resolved URL is
appended without any de-duplication, refuting the claim for the resolution
case it explicitly covers. -/
theorem c4_link_lists_counterexample :
    (event_links c4resolve true false (fun _ => true) c4cands).1
      = ["https://togetter.com/li/1", "https://togetter.com/li/1"] ∧
    ¬ (event_links c4resolve true false (fun _ => true) c4cands).1.Nodup := by
  exact ⟨by decide, by decide⟩

/-- C4 amended: when no shortener resolution takes place
(resolve_shorteners=False, as in the offline rebuild path), tweet_urls and
slide_urls contain no duplicates and every entry is an output of the URL
normalizer applied to some harvested candidate — never a raw unnormalized
string; with resolution enabled, a resolved URL is inserted as returned by
the resolver and may duplicate an existing entry. -/
theorem c4_link_lists_amended (resolve : String → Option String) (validate : Bool)
    (isLive : String → Bool) (cands : List String) :
    (event_links resolve false validate isLive cands).1.Nodup ∧
    (event_links resolve false validate isLive cands).2.Nodup ∧
    (∀ x ∈ (event_links resolve false validate isLive cands).1,
      ∃ raw ∈ cands, normalize_candidate_url raw = some x) ∧
    (∀ x ∈ (event_links resolve false validate isLive cands).2,
      ∃ raw ∈ cands, normalize_candidate_url raw = some x) := by
  rcases extract_links_spec cands with ⟨hnd, hmem⟩
  rcases classify_fold_sublists resolve (extract_links cands) ([], []) with ⟨tw, sl, heq, htw, hsl⟩
  have h1 : event_links resolve false validate isLive cands
      = (tw, if validate then sl.filter isLive else slide_dedup sl) := by
    unfold event_links classify_links
    simp only []
    rw [heq]
    simp
  rw [h1]
  have htwnd : tw.Nodup := hnd.sublist htw
  have hslnd : sl.Nodup := hnd.sublist hsl
  refine ⟨htwnd, ?_, ?_, ?_⟩
  · cases validate with
    | true =>
      show (sl.filter isLive).Nodup
      exact hslnd.filter isLive
    | false =>
      show (slide_dedup sl).Nodup
      exact (dedupKeep_spec sl []).1
  · intro x hx
    exact hmem x (htw.mem hx)
  · intro x hx
    cases validate with
    | true =>
      have : x ∈ sl := List.mem_of_mem_filter hx
      exact hmem x (hsl.mem this)
    | false =>
      have : x ∈ sl := ((dedupKeep_spec sl []).2 x hx).1
      exact hmem x (hsl.mem this)

theorem c4_link_lists_amended_witness :
    (event_links c4resolve false false (fun _ => true) c4cands).1.Nodup ∧
    (∃ raw ∈ c4cands, normalize_candidate_url raw = some "https://togetter.com/li/1") := by
  refine ⟨(c4_link_lists_amended c4resolve false (fun _ => true) c4cands).1,
    (c4_link_lists_amended c4resolve false (fun _ => true) c4cands).2.2.1
      "https://togetter.com/li/1" (by decide)⟩

-- ---------------------------------------------------------------------------
-- source_url uniqueness through incremental runs (C2)
-- ---------------------------------------------------------------------------

theorem dataUrlCells_append (a b : List String) :
    dataUrlCells (a ++ b) = dataUrlCells a ++ dataUrlCells b :=
  List.filterMap_append a b _

theorem dataUrlCells_renderRowsFrom (rows : List EventRow) :
    ∀ cid : Int, (∀ r ∈ rows, renderSafe r = true) →
      dataUrlCells (renderRowsFrom cid rows)
        = rows.map (fun r => md_escape_cell r.connpass_url) := by
  induction rows with
  | nil => intro cid _; rfl
  | cons r rs ih =>
    intro cid hsafe
    show dataUrlCells (renderRow cid r :: renderRowsFrom (cid + 1) rs) = _
    unfold dataUrlCells
    rw [List.filterMap_cons]
    have h1 : rowIdOfLine (renderRow cid r) = some cid :=
      rowIdOfLine_renderRow cid r (hsafe r (List.mem_cons_self _ _))
    have h2 : urlCellOfLine (renderRow cid r) = some (md_escape_cell r.connpass_url) :=
      urlCellOfLine_renderRow cid r (hsafe r (List.mem_cons_self _ _))
    simp only [h1, h2, Option.isSome_some, if_true]
    show md_escape_cell r.connpass_url :: dataUrlCells (renderRowsFrom (cid + 1) rs) = _
    rw [ih (cid + 1) (fun x hx => hsafe x (List.mem_cons_of_mem r hx))]
    rfl

theorem dataUrl_mem_existing {lines : List String} {c : String}
    (hc : c ∈ dataUrlCells lines) (hhttp : startsStr "http" c = true) :
    c ∈ existing_connpass_urls (some lines) := by
  rcases List.mem_filterMap.mp hc with ⟨l, hl, hfl⟩
  have hcell : urlCellOfLine l = some c := by
    by_cases h : (rowIdOfLine l).isSome = true
    · rw [if_pos h] at hfl; exact hfl
    · rw [if_neg h] at hfl; cases hfl
  refine List.mem_filterMap.mpr ⟨l, hl, ?_⟩
  rw [hcell]
  show (if startsStr "http" c = true then some c else none) = some c
  rw [hhttp]
  simp

theorem dataUrlCells_ensure (lines : List String) :
    dataUrlCells (ensure_table_header (some lines)) = dataUrlCells lines := by
  show dataUrlCells (if lines.any _ then lines else headerLines) = dataUrlCells lines
  by_cases h : lines.any (fun l => !(stripWsList l.data).isEmpty) = true
  · rw [if_pos h]
  · rw [if_neg h]
    have h' : lines.any (fun l => !(stripWsList l.data).isEmpty) = false :=
      Bool.eq_false_iff.mpr h
    have hhd : dataUrlCells headerLines = [] := by decide
    rw [hhd]
    symm
    rw [dataUrlCells, List.filterMap_eq_nil_iff]
    intro l hl
    have := List.any_eq_false.mp h' l hl
    rw [rowId_none_of_ws (by simpa using this)]
    rfl

theorem run_incr_pages_unique (rowOf : String → EventRow)
    (hurl : ∀ u, (rowOf u).connpass_url = u)
    (hsafe : ∀ u, renderSafe (rowOf u) = true) :
    ∀ (pages : List (List String)) (file existing : List String) (cid rem : Int),
      (∀ q ∈ pages, ∀ u ∈ q, md_escape_cell u = u) →
      (dataUrlCells file).Nodup →
      (∀ c ∈ dataUrlCells file, c ∈ existing) →
      ∀ f', (run_incr_pages rowOf file existing cid rem pages).store = some f' →
        (dataUrlCells f').Nodup := by
  intro pages
  induction pages with
  | nil =>
    intro file existing cid rem _ hnd _ f' hf
    have hff : file = f' := Option.some_inj.mp hf
    rw [← hff]
    exact hnd
  | cons p ps ih =>
    intro file existing cid rem hclean hnd hex f' hf
    simp only [run_incr_pages] at hf
    by_cases h0 : rem ≤ 0
    · rw [if_pos h0] at hf
      have hff : file = f' := Option.some_inj.mp hf
      rw [← hff]
      exact hnd
    · rw [if_neg h0] at hf
      by_cases h1 : (dedupKeep [] p).isEmpty = true
      · rw [if_pos h1] at hf
        have hff : file = f' := Option.some_inj.mp hf
        rw [← hff]
        exact hnd
      · rw [if_neg h1] at hf
        set fresh := (dedupKeep [] p).filter (fun u => !existing.contains u) with hfresh
        set rows := (sortIncr (fresh.map rowOf)).take rem.toNat with hrows
        by_cases h2 : rows.isEmpty = true
        · rw [if_pos h2] at hf
          exact ih file existing cid rem
            (fun q hq => hclean q (List.mem_cons_of_mem p hq)) hnd hex f' hf
        · rw [if_neg h2] at hf
          have hdecomp : ∀ r ∈ rows, ∃ u, u ∈ fresh ∧ r = rowOf u := by
            intro r hr
            have h3 := mem_sortByLe (List.mem_of_mem_take hr)
            rcases List.mem_map.mp h3 with ⟨u, hu, rfl⟩
            exact ⟨u, hu, rfl⟩
          have hsafe' : ∀ r ∈ rows, renderSafe r = true := fun r hr =>
            renderSafe_of_mem_batch hsafe hr
          have hcells : dataUrlCells (append_rows file rows cid)
              = dataUrlCells file ++ rows.map (fun r => r.connpass_url) := by
            unfold append_rows
            rw [dataUrlCells_append, dataUrlCells_renderRowsFrom rows cid hsafe']
            congr 1
            refine List.map_congr_left ?_
            intro r hr
            rcases hdecomp r hr with ⟨u, hu, rfl⟩
            rw [hurl]
            have hup : u ∈ p := ((dedupKeep_spec p []).2 u (List.mem_filter.mp hu).1).1
            exact hclean p (List.mem_cons_self _ _) u hup
          have husnd : (rows.map (fun r => r.connpass_url)).Nodup := by
            have hfreshnd : fresh.Nodup := (dedupKeep_spec p []).1.filter _
            have hmapfresh : (fresh.map rowOf).map (fun r => r.connpass_url) = fresh := by
              rw [List.map_map]
              have hcg : ∀ u ∈ fresh, ((fun r => r.connpass_url) ∘ rowOf) u = id u :=
                fun u _ => hurl u
              rw [List.map_congr_left hcg, List.map_id]
            have hperm : ((sortIncr (fresh.map rowOf)).map (fun r => r.connpass_url)).Perm fresh := by
              have hp := (sortByLe_perm rowLeIncr (fresh.map rowOf)).map
                (fun r => r.connpass_url)
              rw [hmapfresh] at hp
              exact hp
            have hnd2 : ((sortIncr (fresh.map rowOf)).map (fun r => r.connpass_url)).Nodup :=
              hperm.nodup_iff.mpr hfreshnd
            rw [hrows, List.map_take]
            exact (List.take_sublist _ _).nodup hnd2
          have husfresh : ∀ c ∈ rows.map (fun r => r.connpass_url), c ∈ fresh := by
            intro c hc
            rcases List.mem_map.mp hc with ⟨r, hr, rfl⟩
            rcases hdecomp r hr with ⟨u, hu, rfl⟩
            rw [hurl]
            exact hu
          have hndnew : (dataUrlCells (append_rows file rows cid)).Nodup := by
            rw [hcells, List.nodup_append]
            refine ⟨hnd, husnd, ?_⟩
            intro c hc1 hc2
            have hcin := husfresh c hc2
            have hcf : existing.contains c = false := by
              have := (List.mem_filter.mp hcin).2
              simpa using this
            have hnm : c ∉ existing := by simpa using hcf
            exact hnm (hex c hc1)
          have hexnew : ∀ c ∈ dataUrlCells (append_rows file rows cid),
              c ∈ existing ++ rows.map (fun r => r.connpass_url) := by
            intro c hc
            rw [hcells] at hc
            rcases List.mem_append.mp hc with hc | hc
            · exact List.mem_append.mpr (Or.inl (hex c hc))
            · exact List.mem_append.mpr (Or.inr hc)
          exact ih _ _ _ _ (fun q hq => hclean q (List.mem_cons_of_mem p hq)) hndnew hexnew f' hf

/-- C2: over a store whose data rows carry pairwise-distinct source_url cells
each starting with "http", an incremental run skips every URL already present
(or already appended within the run) and so preserves source_url uniqueness
across all data rows.  Listed URLs are assumed cell-clean (fixed by the
markdown cell escaping), and every parsed row carries its own URL, as
`_event_row_from_url` guarantees. -/
theorem c2_source_url_unique (rowOf : String → EventRow) (limit : Int)
    (pages : List (List String)) (ls0 : List String)
    (hurl : ∀ u, (rowOf u).connpass_url = u)
    (hsafe : ∀ u, renderSafe (rowOf u) = true)
    (hclean : ∀ q ∈ pages, ∀ u ∈ q, md_escape_cell u = u)
    (hnd : (dataUrlCells ls0).Nodup)
    (hhttp : ∀ c ∈ dataUrlCells ls0, startsStr "http" c = true) :
    ∀ f', (run_incremental rowOf limit pages (some ls0)).store = some f' →
      (dataUrlCells f').Nodup := by
  intro f' hf
  have hcells := dataUrlCells_ensure ls0
  refine run_incr_pages_unique rowOf hurl hsafe pages (ensure_table_header (some ls0))
    (existing_connpass_urls (some (ensure_table_header (some ls0)))) _ _ hclean
    (by rw [hcells]; exact hnd) ?_ f' hf
  intro c hc
  rw [hcells] at hc
  exact dataUrl_mem_existing (hcells ▸ hc) (hhttp c hc)

theorem c2_source_url_unique_witness :
    (dataUrlCells ((run_incremental witnessRow 5 [["https://a/1/", "https://a/2/"]]
        (some c2Store)).store.getD [])).Nodup := by
  refine c2_source_url_unique witnessRow 5 [["https://a/1/", "https://a/2/"]] c2Store
    (fun u => rfl) (fun u => rfl) ?_ (by decide) (by decide)
    ((run_incremental witnessRow 5 [["https://a/1/", "https://a/2/"]] (some c2Store)).store.getD [])
    (by decide)
  intro q hq u hu
  rcases List.mem_singleton.mp hq with rfl
  rcases List.mem_cons.mp hu with rfl | hu
  · decide
  · rcases List.mem_singleton.mp hu with rfl
    decide

-- ---------------------------------------------------------------------------
-- Rebuild overwrite with sorted contiguous ids (C8)
-- ---------------------------------------------------------------------------

theorem clCmp_eq_iff : ∀ a b : List Char, clCmp a b = .eq ↔ a = b := by
  intro a
  induction a with
  | nil => intro b; cases b <;> simp [clCmp]
  | cons x xs ih =>
    intro b
    cases b with
    | nil => simp [clCmp]
    | cons y ys =>
      rw [clCmp]
      by_cases h1 : x.toNat < y.toNat
      · rw [if_pos h1]
        constructor
        · intro h; cases h
        · rintro ⟨rfl, rfl⟩
          omega
      · rw [if_neg h1]
        by_cases h2 : y.toNat < x.toNat
        · rw [if_pos h2]
          constructor
          · intro h; cases h
          · rintro ⟨rfl, rfl⟩
            omega
        · rw [if_neg h2]
          have hn : x.toNat = y.toNat := by omega
          have hxy : x = y := Char.ext (UInt32.ext hn)
          subst hxy
          rw [ih]
          simp

theorem clCmp_swap : ∀ a b : List Char, clCmp b a = (clCmp a b).swap := by
  intro a
  induction a with
  | nil => intro b; cases b <;> rfl
  | cons x xs ih =>
    intro b
    cases b with
    | nil => rfl
    | cons y ys =>
      rw [clCmp, clCmp]
      by_cases h1 : x.toNat < y.toNat
      · have h2 : ¬ y.toNat < x.toNat := by omega
        simp only [if_pos h1, if_neg h2]
        rfl
      · by_cases h2 : y.toNat < x.toNat
        · simp only [if_pos h2, if_neg h1]
          rfl
        · simp only [if_neg h1, if_neg h2]
          exact ih ys

theorem clCmp_lt_trans : ∀ a b c : List Char,
    clCmp a b = .lt → clCmp b c = .lt → clCmp a c = .lt := by
  intro a
  induction a with
  | nil =>
    intro b c hab hbc
    cases b with
    | nil => exact hbc
    | cons y ys =>
      cases c with
      | nil => cases hbc
      | cons z zs => rfl
  | cons x xs ih =>
    intro b c hab hbc
    cases b with
    | nil => cases hab
    | cons y ys =>
      cases c with
      | nil => cases hbc
      | cons z zs =>
        rw [clCmp] at hab hbc ⊢
        by_cases h1 : x.toNat < y.toNat
        · by_cases h2 : y.toNat < z.toNat
          · rw [if_pos (by omega)]
          · rw [if_neg h2] at hbc
            by_cases h3 : z.toNat < y.toNat
            · rw [if_pos h3] at hbc; cases hbc
            · rw [if_pos (by omega)]
        · rw [if_neg h1] at hab
          by_cases h1' : y.toNat < x.toNat
          · rw [if_pos h1'] at hab; cases hab
          · rw [if_neg h1'] at hab
            by_cases h2 : y.toNat < z.toNat
            · rw [if_pos (by omega)]
            · rw [if_neg h2] at hbc
              by_cases h3 : z.toNat < y.toNat
              · rw [if_pos h3] at hbc; cases hbc
              · rw [if_neg h3] at hbc
                rw [if_neg (by omega), if_neg (by omega)]
                exact ih ys zs hab hbc

theorem strCmp_eq_iff (a b : String) : strCmp a b = .eq ↔ a = b := by
  rw [strCmp, clCmp_eq_iff]
  constructor
  · intro h
    cases a; cases b; simp_all
  · rintro rfl; rfl

theorem cmpLex_swap : ∀ a b : List String, cmpLex b a = (cmpLex a b).swap := by
  intro a
  induction a with
  | nil => intro b; cases b <;> rfl
  | cons x xs ih =>
    intro b
    cases b with
    | nil => rfl
    | cons y ys =>
      rw [cmpLex, cmpLex, strCmp, strCmp, clCmp_swap, ih]
      cases clCmp x.data y.data <;> cases cmpLex xs ys <;> rfl

theorem cmpLex_eq_iff : ∀ a b : List String, cmpLex a b = .eq ↔ a = b := by
  intro a
  induction a with
  | nil => intro b; cases b <;> simp [cmpLex]
  | cons x xs ih =>
    intro b
    cases b with
    | nil => simp [cmpLex]
    | cons y ys =>
      rw [cmpLex]
      rcases hxy : strCmp x y with _ | _ | _
      · simp only [Ordering.then]
        constructor
        · intro h; cases h
        · rintro ⟨rfl, rfl⟩
          rw [(strCmp_eq_iff x x).mpr rfl] at hxy
          cases hxy
      · have hx : x = y := (strCmp_eq_iff x y).mp hxy
        subst hx
        simp only [Ordering.then]
        rw [ih]
        simp
      · simp only [Ordering.then]
        constructor
        · intro h; cases h
        · rintro ⟨rfl, rfl⟩
          rw [(strCmp_eq_iff x x).mpr rfl] at hxy
          cases hxy

theorem cmpLex_lt_trans : ∀ a b c : List String,
    cmpLex a b = .lt → cmpLex b c = .lt → cmpLex a c = .lt := by
  intro a
  induction a with
  | nil =>
    intro b c hab hbc
    cases b with
    | nil => exact hbc
    | cons y ys =>
      cases c with
      | nil => cases hbc
      | cons z zs => rfl
  | cons x xs ih =>
    intro b c hab hbc
    cases b with
    | nil => cases hab
    | cons y ys =>
      cases c with
      | nil => cases hbc
      | cons z zs =>
        rw [cmpLex] at hab hbc ⊢
        rcases hxy : strCmp x y with _ | _ | _
        · rcases hyz : strCmp y z with _ | _ | _
          · rw [show strCmp x z = .lt from clCmp_lt_trans x.data y.data z.data hxy hyz]
            rfl
          · have hy : y = z := (strCmp_eq_iff y z).mp hyz
            subst hy
            rw [hxy]
            rfl
          · rw [hyz] at hbc
            simp [Ordering.then] at hbc
        · have hx : x = y := (strCmp_eq_iff x y).mp hxy
          subst hx
          have hxx : strCmp x x = .eq := (strCmp_eq_iff x x).mpr rfl
          rw [hxx] at hab
          have hab' : cmpLex xs ys = .lt := by simpa [Ordering.then] using hab
          rcases hyz : strCmp x z with _ | _ | _
          · rfl
          · rw [hyz] at hbc
            have hbc' : cmpLex ys zs = .lt := by simpa [Ordering.then] using hbc
            simp only [Ordering.then]
            exact ih ys zs hab' hbc'
          · rw [hyz] at hbc
            simp [Ordering.then] at hbc
        · rw [hxy] at hab
          simp [Ordering.then] at hab

theorem cmpLex_ne_gt_total (a b : List String) :
    cmpLex a b ≠ .gt ∨ cmpLex b a ≠ .gt := by
  rcases h : cmpLex a b with _ | _ | _
  · left; simp
  · left; simp
  · right
    rw [cmpLex_swap, h]
    simp [Ordering.swap]

theorem cmpLex_ne_gt_trans (a b c : List String)
    (hab : cmpLex a b ≠ .gt) (hbc : cmpLex b c ≠ .gt) : cmpLex a c ≠ .gt := by
  rcases h1 : cmpLex a b with _ | _ | _
  · rcases h2 : cmpLex b c with _ | _ | _
    · rw [cmpLex_lt_trans a b c h1 h2]
      simp
    · have hb : b = c := (cmpLex_eq_iff b c).mp h2
      subst hb
      rw [h1]
      simp
    · exact absurd h2 hbc
  · have ha : a = b := (cmpLex_eq_iff a b).mp h1
    subst ha
    exact hbc
  · exact absurd h1 hab

theorem ordNotGt_true {o : Ordering} (h : o ≠ .gt) : (!(o == Ordering.gt)) = true := by
  cases o
  · rfl
  · rfl
  · exact absurd rfl h

theorem ordNotGt_of_true {o : Ordering} (h : (!(o == Ordering.gt)) = true) : o ≠ .gt := by
  cases o
  · intro hh; cases hh
  · intro hh; cases hh
  · exact absurd h (by decide)

theorem rowLeRebuild_total (a b : EventRow) :
    rowLeRebuild a b = true ∨ rowLeRebuild b a = true := by
  unfold rowLeRebuild
  rcases cmpLex_ne_gt_total [a.date_yyyy_mm_dd, a.time_range, a.connpass_url]
      [b.date_yyyy_mm_dd, b.time_range, b.connpass_url] with h | h
  · exact Or.inl (ordNotGt_true h)
  · exact Or.inr (ordNotGt_true h)

theorem rowLeRebuild_trans (a b c : EventRow)
    (hab : rowLeRebuild a b = true) (hbc : rowLeRebuild b c = true) :
    rowLeRebuild a c = true := by
  unfold rowLeRebuild at hab hbc ⊢
  exact ordNotGt_true (cmpLex_ne_gt_trans _ _ _ (ordNotGt_of_true hab) (ordNotGt_of_true hbc))

theorem insertRow_pairwise (le : α → α → Bool)
    (htot : ∀ a b, le a b = true ∨ le b a = true)
    (htrans : ∀ a b c, le a b = true → le b c = true → le a c = true)
    (a : α) : ∀ l : List α, l.Pairwise (fun x y => le x y = true) →
      (insertRow le a l).Pairwise (fun x y => le x y = true) := by
  intro l
  induction l with
  | nil =>
    intro _
    simp [insertRow]
  | cons b bs ih =>
    intro hp
    rw [insertRow]
    rcases List.pairwise_cons.mp hp with ⟨hb, hbs⟩
    by_cases h : le a b = true
    · rw [if_pos h]
      refine List.pairwise_cons.mpr ⟨?_, hp⟩
      intro y hy
      rcases List.mem_cons.mp hy with rfl | hy
      · exact h
      · exact htrans a b y h (hb y hy)
    · rw [if_neg h]
      refine List.pairwise_cons.mpr ⟨?_, ih hbs⟩
      intro y hy
      have hmem := (insertRow_perm le a bs).mem_iff.mp hy
      rcases List.mem_cons.mp hmem with heq | hy'
      · cases heq
        exact (htot _ _).resolve_left h
      · exact hb y hy'

theorem sortByLe_pairwise (le : α → α → Bool)
    (htot : ∀ a b, le a b = true ∨ le b a = true)
    (htrans : ∀ a b c, le a b = true → le b c = true → le a c = true) :
    ∀ l : List α, (sortByLe le l).Pairwise (fun x y => le x y = true) := by
  intro l
  induction l with
  | nil => simp [sortByLe]
  | cons a as ih =>
    rw [sortByLe]
    exact insertRow_pairwise le htot htrans a _ ih

theorem collect_urls_nodup (rowOf : String → EventRow)
    (hurl : ∀ u, (rowOf u).connpass_url = u) :
    ∀ (us : List String) (st : List String × List EventRow),
      (st.2.map (fun r => r.connpass_url)).Nodup →
      (∀ c ∈ st.2.map (fun r => r.connpass_url), st.1.contains c = true) →
      ((collect_urls rowOf us st).2.map (fun r => r.connpass_url)).Nodup ∧
      (∀ c ∈ (collect_urls rowOf us st).2.map (fun r => r.connpass_url),
        (collect_urls rowOf us st).1.contains c = true) := by
  intro us
  induction us with
  | nil =>
    intro st h1 h2
    exact ⟨h1, h2⟩
  | cons u us ih =>
    intro st h1 h2
    rw [collect_urls]
    by_cases h : st.1.contains u = true
    · rw [if_pos h]
      exact ih st h1 h2
    · rw [if_neg h]
      refine ih _ ?_ ?_
      · rw [List.map_append, List.nodup_append]
        refine ⟨h1, by simp, ?_⟩
        intro c hc1 hc2
        simp only [List.map_cons, List.map_nil, List.mem_singleton, hurl] at hc2
        subst hc2
        exact h (h2 _ hc1)
      · intro c hc
        rw [List.map_append] at hc
        rcases List.mem_append.mp hc with hc | hc
        · have hcs : c ∈ st.1 := by simpa using h2 c hc
          have hcu : c ∈ u :: st.1 := List.mem_cons_of_mem u hcs
          simpa using hcu
        · simp only [List.map_cons, List.map_nil, List.mem_singleton, hurl] at hc
          subst hc
          simp

theorem collect_pages_nodup (rowOf : String → EventRow)
    (hurl : ∀ u, (rowOf u).connpass_url = u) :
    ∀ (pages : List (List String)) (st : List String × List EventRow)
      (rows : List EventRow),
      (st.2.map (fun r => r.connpass_url)).Nodup →
      (∀ c ∈ st.2.map (fun r => r.connpass_url), st.1.contains c = true) →
      collect_pages rowOf st pages = some rows →
      (rows.map (fun r => r.connpass_url)).Nodup := by
  intro pages
  induction pages with
  | nil =>
    intro st rows h1 _ h
    simp only [collect_pages, Option.some_inj] at h
    subst h
    exact h1
  | cons p ps ih =>
    intro st rows h1 h2 h
    rw [collect_pages] at h
    by_cases he : (dedupKeep [] p).isEmpty = true
    · rw [if_pos he] at h; cases h
    · rw [if_neg he] at h
      obtain ⟨hn1, hn2⟩ := collect_urls_nodup rowOf hurl (dedupKeep [] p) st h1 h2
      exact ih _ rows hn1 hn2 h

/-- C8: a successful rebuild run overwrites the whole store: the output is
exactly the header followed by the collected rows (deduplicated by URL within
the run) sorted by the key (date, time_range, source_url), rendered with the
fresh contiguous id sequence 1, 2, ..., n in sorted order; the previous file
content does not appear in the result. -/
theorem c8_rebuild_overwrite (rowOf : String → EventRow)
    (pages : List (List String)) (file0 : Option (List String))
    (rows : List EventRow)
    (hurl : ∀ u, (rowOf u).connpass_url = u)
    (hsafe : ∀ u, renderSafe (rowOf u) = true)
    (hc : collect_pages rowOf ([], []) pages = some rows) :
    run_rebuild rowOf pages file0
        = .ok (some (headerLines ++ renderRowsFrom 1 (sortRebuild rows))) ∧
    (sortRebuild rows).Perm rows ∧
    (sortRebuild rows).Pairwise (fun a b => rowLeRebuild a b = true) ∧
    ((sortRebuild rows).map (fun r => r.connpass_url)).Nodup ∧
    storeIds (headerLines ++ renderRowsFrom 1 (sortRebuild rows))
        = idListFrom 1 (sortRebuild rows).length := by
  have hout : run_rebuild rowOf pages file0
      = .ok (some (headerLines ++ renderRowsFrom 1 (sortRebuild rows))) := by
    unfold run_rebuild
    rw [hc]
    rfl
  refine ⟨hout, sortByLe_perm rowLeRebuild rows, ?_, ?_, ?_⟩
  · exact sortByLe_pairwise rowLeRebuild rowLeRebuild_total rowLeRebuild_trans rows
  · have hnd : (rows.map (fun r => r.connpass_url)).Nodup :=
      collect_pages_nodup rowOf hurl pages ([], []) rows (by simp) (by simp) hc
    have hperm := (sortByLe_perm rowLeRebuild rows).map (fun r => r.connpass_url)
    exact hperm.nodup_iff.mpr hnd
  · rw [storeIds_append, storeIds_headerLines, List.nil_append]
    refine storeIds_renderRowsFrom _ 1 ?_
    intro r hr
    rcases mem_collect_pages rowOf pages ([], []) rows hc r (mem_sortByLe hr) with h1 | ⟨u, rfl⟩
    · cases h1
    · exact hsafe u

theorem c8_rebuild_overwrite_witness :
    run_rebuild witnessRow [["https://a/9/", "https://a/8/", "https://a/9/"]] none
        = .ok (some (headerLines ++ renderRowsFrom 1
            (sortRebuild [witnessRow "https://a/9/", witnessRow "https://a/8/"]))) ∧
    (sortRebuild [witnessRow "https://a/9/", witnessRow "https://a/8/"]).Perm
        [witnessRow "https://a/9/", witnessRow "https://a/8/"] ∧
    (sortRebuild [witnessRow "https://a/9/", witnessRow "https://a/8/"]).Pairwise
        (fun a b => rowLeRebuild a b = true) ∧
    ((sortRebuild [witnessRow "https://a/9/", witnessRow "https://a/8/"]).map
        (fun r => r.connpass_url)).Nodup ∧
    storeIds (headerLines ++ renderRowsFrom 1
        (sortRebuild [witnessRow "https://a/9/", witnessRow "https://a/8/"]))
        = idListFrom 1
            (sortRebuild [witnessRow "https://a/9/", witnessRow "https://a/8/"]).length :=
  c8_rebuild_overwrite witnessRow [["https://a/9/", "https://a/8/", "https://a/9/"]] none
    [witnessRow "https://a/9/", witnessRow "https://a/8/"]
    (fun u => rfl) (fun u => rfl) (by decide)

-- ---------------------------------------------------------------------------
-- The C7 parsing scenario
-- ---------------------------------------------------------------------------

theorem c7_vol_component (title : String) (hvol : searchBy mVolDotAt title.data = some 5) :
    (infer_type_and_vol title).2 = "vol.5" := by
  unfold infer_type_and_vol
  rw [hvol]
  simp only []
  split
  · rfl
  · split
    · rfl
    · split
      · rfl
      · rfl

theorem c7_main (html : String) (title d : String)
    (ht : extract_title html = some title)
    (hd : extract_date html = some d)
    (hpart : extract_participants html = some 0) :
    draft_of_html html = some
      { title := title, event_type := (infer_type_and_vol title).1,
        vol := (infer_type_and_vol title).2, date_yyyy_mm_dd := d,
        weekday_ja := (extract_weekday_and_timerange html).1,
        time_range := (extract_weekday_and_timerange html).2,
        participants := 0,
        venue_name := (extract_place_name_and_address html).1,
        address := (extract_place_name_and_address html).2,
        mode := infer_mode (extract_place_name_and_address html).1
          (extract_place_name_and_address html).2 } := by
  unfold draft_of_html
  rw [ht]
  simp only []
  rw [hd]
  simp only []
  rw [hpart]

/-- C7 does not hold as stated: a detail page can contain the date/time text
`2024/03/10(日) 19:00 ～ 21:00`, a title containing `LT大会 vol.5`, venue
`未定` with an empty address, no participant pattern and the phrase
`申し込み不要`, yet parse with weekday `土` and time range `10:00~11:00`,
because `re.search` takes the leftmost date/time match on the page. -/
theorem c7_scenario_counterexample :
    subStr "2024/03/10(日) 19:00 ～ 21:00" c7htmlBad = true ∧
    extract_title c7htmlBad = some "LT大会 vol.5" ∧
    extract_place_name_and_address c7htmlBad = ("未定", "") ∧
    participants_patterns c7htmlBad = none ∧
    subStr "申し込み不要" c7htmlBad = true ∧
    (draft_of_html c7htmlBad).map (fun r => r.weekday_ja) = some "土" ∧
    (draft_of_html c7htmlBad).map (fun r => r.time_range) = some "10:00~11:00" := by
  refine ⟨?_, ?_, ?_, ?_, ?_, ?_, ?_⟩ <;> decide

/-- C7, amended: on a detail page whose extracted title matches `vol ... 5`,
whose leftmost date/time text has weekday `日` and range `19:00` to `21:00`,
with no participant pattern but the phrase `申し込み不要`, venue `未定` and an
empty address, and some extracted date, the draft record has
participants = 0 (the no-registration phrase yields 0, not a failure),
mode = `未定` (placeholder venue with empty address), weekday = `日`,
time_range = `19:00~21:00`, and vol = `vol.5`. -/
theorem c7_scenario_amended (html : String) (title d : String)
    (ht : extract_title html = some title)
    (hvol : searchBy mVolDotAt title.data = some 5)
    (hd : extract_date html = some d)
    (hwt : extract_weekday_and_timerange html = ("日", "19:00~21:00"))
    (hp : participants_patterns html = none)
    (hreg : subStr "申し込み不要" html = true)
    (hva : extract_place_name_and_address html = ("未定", "")) :
    ∃ r, draft_of_html html = some r ∧ r.participants = 0 ∧ r.mode = "未定" ∧
      r.weekday_ja = "日" ∧ r.time_range = "19:00~21:00" ∧ r.vol = "vol.5" := by
  have hpart : extract_participants html = some 0 := by
    unfold extract_participants
    rw [hp, hreg]
    simp
  refine ⟨_, c7_main html title d ht hd hpart, rfl, ?_, ?_, ?_, ?_⟩
  · show infer_mode (extract_place_name_and_address html).1
        (extract_place_name_and_address html).2 = "未定"
    rw [hva]
    decide
  · show (extract_weekday_and_timerange html).1 = "日"
    rw [hwt]
  · show (extract_weekday_and_timerange html).2 = "19:00~21:00"
    rw [hwt]
  · exact c7_vol_component title hvol

theorem c7_scenario_amended_witness :
    ∃ r, draft_of_html c7htmlGood = some r ∧ r.participants = 0 ∧ r.mode = "未定" ∧
      r.weekday_ja = "日" ∧ r.time_range = "19:00~21:00" ∧ r.vol = "vol.5" :=
  c7_scenario_amended c7htmlGood "LT大会 vol.5" "2024/03/10"
    (by decide) (by decide) (by decide) (by decide) (by decide) (by decide) (by decide)
